import Mathlib

/-!
# Verification of the site-intelligence crawl pipeline

Shallow embedding of the core pure logic of the crawler:

* `consensus-scorer.ts` — cross-sample selector consensus scoring
  (`stabilityScore`, `scoreConsensus`);
* `page-classifier.ts` — three-tier page classification
  (`jsonLdTypeToPageType`, `scoreUrlByType`, `classifyPage`);
* `url-registry-builder.ts` — URL registry building and URL pattern
  induction (`buildUrlRegistry`, `crawlPaginatedProducts`,
  `deriveUrlPatterns`, `clusterPaths`, `escapeRegex`).

JavaScript numbers are modelled as `ℚ` (all quantities involved are exact
small rationals, far from any double-precision rounding boundary), strings
as `String`, `Map`/`Record` objects as insertion-ordered association
lists, and `Set` as insertion-ordered duplicate-free lists.  Each JS
regular-expression literal used by the code is translated to a dedicated
Boolean matcher with the regex quoted in its doc comment; the regex
*strings produced as data* by the pattern-induction code are interpreted
by a small regular-expression engine (`compileRx` / `rxTest`) that covers
exactly the constructs those strings use.
-/

namespace Stealth

/-! ## Basic string helpers -/

/-- JS `hay.includes(sub)`: substring containment. -/
def strContains (hay sub : String) : Bool :=
  hay.data.tails.any (fun t => sub.data.isPrefixOf t)

/-- `[a-z]` -/
def isLowerAlpha (c : Char) : Bool := 'a' ≤ c && c ≤ 'z'

/-- `[A-Z]` -/
def isUpperAlpha (c : Char) : Bool := 'A' ≤ c && c ≤ 'Z'

/-- `[0-9]` -/
def isDigitC (c : Char) : Bool := '0' ≤ c && c ≤ '9'

/-! ## `consensus-scorer.ts` — selector stability scoring

`stabilityScore` tests the selector string against a cascade of
substring checks and regex literals.  Each regex is translated to a
Boolean existence matcher (JS `RegExp.test` returns whether a match
exists anywhere in the string unless anchored). -/

/-- `/^#[a-z][a-z0-9-]+/.test(sel)`: anchored at the start — `#`, one
lowercase letter, then at least one of `[a-z0-9-]`. -/
def reIdPrefix (s : String) : Bool :=
  match s.data with
  | '#' :: c :: d :: _ => isLowerAlpha c && (isLowerAlpha d || isDigitC d || d == '-')
  | _ => false

/-- Continuation of the kebab-class matcher after `\.[a-z]`: consume
`[a-z0-9]*`, then require one group `-[a-z][a-z0-9]+`.  (Existence of a
later group is irrelevant for `test`.) -/
def kebTail : List Char → Bool
  | [] => false
  | '-' :: rest =>
    match rest with
    | c :: d :: _ => isLowerAlpha c && (isLowerAlpha d || isDigitC d)
    | _ => false
  | c :: rest => (isLowerAlpha c || isDigitC c) && kebTail rest

/-- `/\.[a-z][a-z0-9]*(?:-[a-z][a-z0-9]+)+/.test(sel)`: unanchored search
for a dot followed by a kebab-case class name. -/
def reKebabClass : List Char → Bool
  | [] => false
  | '.' :: rest =>
    (match rest with
     | c :: rest2 => isLowerAlpha c && kebTail rest2
     | [] => false) || reKebabClass rest
  | _ :: rest => reKebabClass rest

/-- `/^(button|input|select|textarea|a)\[/.test(sel)`: anchored prefix
alternation followed by a literal `[`. -/
def reTagAttr (s : String) : Bool :=
  ["button[", "input[", "select[", "textarea[", "a["].any
    (fun p => p.data.isPrefixOf s.data)

/-- Continuation of the camel-class matcher after `\.[a-z]`: consume
`[a-z]*`, then require `[A-Z]` followed by at least one `[a-zA-Z]`. -/
def camTail : List Char → Bool
  | [] => false
  | c :: rest =>
    if isLowerAlpha c then camTail rest
    else if isUpperAlpha c then
      match rest with
      | d :: _ => isLowerAlpha d || isUpperAlpha d
      | [] => false
    else false

/-- `/\.[a-z][a-z]*[A-Z][a-zA-Z]+/.test(sel)`: unanchored search for a
dot followed by a camelCase class name. -/
def reCamelClass : List Char → Bool
  | [] => false
  | '.' :: rest =>
    (match rest with
     | c :: rest2 => isLowerAlpha c && camTail rest2
     | [] => false) || reCamelClass rest
  | _ :: rest => reCamelClass rest

/-- `[a-zA-Z0-9_-]` -/
def isWordC (c : Char) : Bool :=
  isLowerAlpha c || isUpperAlpha c || isDigitC c || c == '_' || c == '-'

/-- `n` consecutive characters satisfying `[a-zA-Z0-9_-]`. -/
def wordRun : Nat → List Char → Bool
  | 0, _ => true
  | _ + 1, [] => false
  | n + 1, c :: rest => isWordC c && wordRun n rest

/-- `/\.[a-zA-Z0-9_-]{12,}/.test(sel)`: unanchored search for a dot
followed by at least 12 word characters. -/
def reHashClass : List Char → Bool
  | [] => false
  | '.' :: rest => wordRun 12 rest || reHashClass rest
  | _ :: rest => reHashClass rest

/-- `stabilityScore` from `consensus-scorer.ts`, scaled by 100 so that
every arithmetic step stays in `ℕ` (rational arithmetic does not reduce
in the kernel; the source's values 1.0, 0.95, …, 0.2 are exactly these
numbers divided by 100, see `stabilityScore`). -/
def stabilityPct (sel : String) : ℕ :=
  if strContains sel "data-testid" || strContains sel "data-test-id" then 100
  else if reIdPrefix sel || strContains sel "[id=" then 95
  else if strContains sel "aria-label" || strContains sel "[role=" ||
          strContains sel "[role=\"" then 85
  else if strContains sel "itemProp" || strContains sel "itemprop" then 80
  else if strContains sel "[name=" then 75
  else if reKebabClass sel.data then 70
  else if reTagAttr sel then 65
  else if reCamelClass sel.data then 55
  else if reHashClass sel.data then 20
  else 50

/-- `stabilityScore` from `consensus-scorer.ts`: heuristic 0.2–1.0 weight
for how durable a selector looks (`data-testid` → 1.0, `#id` → 0.95,
aria → 0.85, itemProp → 0.80, `[name=]` → 0.75, kebab class → 0.70,
tag+attribute → 0.65, camel class → 0.55, hash class → 0.20,
default 0.50). -/
def stabilityScore (sel : String) : ℚ := (stabilityPct sel : ℚ) / 100

/-! ## `consensus-scorer.ts` — consensus scoring -/

/-- Modelled from the spec: `VerifyMode` is declared in
`ecommerce-taxonomy.ts`, which is not among the provided sources.  §4.4
lists the five verification modes `exists`, `text`, `price`, `image`,
`count`; `scoreConsensus` receives the mode map but never reads it. -/
inductive VerifyMode
  | vexists | vtext | vprice | vimage | vcount
deriving DecidableEq

/-- `ProbeResult` from `consensus-scorer.ts`: one (selector, matched,
verified, example) tuple for one page visit.  `exampleValue?: string`
becomes `Option String`. -/
structure ProbeResult where
  selector : String
  matched : Bool
  verified : Bool
  exampleValue : Option String
deriving DecidableEq

/-- `PageProbeResults = Record<string, ProbeResult[]>`: all probe results
for all intents on one page, as an insertion-ordered association list. -/
abbrev PageProbeResults := List (String × List ProbeResult)

/-- `SelectorEntry` from `shared-types`: ordered fallback chain plus
aggregate confidence. -/
structure SelectorEntry where
  selectors : List String
  confidence : ℤ
  sampleCount : ℕ
  exampleValue : Option String
deriving DecidableEq

/-- Per-selector tallies accumulated by `scoreConsensus`. -/
structure SelStats where
  matchCount : ℕ
  contentCount : ℕ
  exampleValues : List String
deriving DecidableEq

/-- JS `record[key]` on a string-keyed object: first matching key. -/
def recLookup (m : List (String × α)) (k : String) : Option α :=
  (m.find? (fun e => e.1 == k)).map (fun e => e.2)

/-- JS `Set.add` (insertion order, no duplicates). -/
def addIntent (acc : List String) (k : String) : List String :=
  if acc.contains k then acc else acc ++ [k]

/-- The `intents` set: every key of every page's probe record, in
first-seen order. -/
def collectIntents (pages : List PageProbeResults) : List String :=
  pages.foldl (fun acc page => page.foldl (fun a kv => addIntent a kv.1) acc) []

/-- One probe's contribution to a selector's tallies: `matchCount++` when
matched, `contentCount++` and example push (JS truthiness: the empty
string is not pushed) when verified. -/
def bumpStats (st : SelStats) (p : ProbeResult) : SelStats :=
  { matchCount := st.matchCount + (if p.matched then 1 else 0)
    contentCount := st.contentCount + (if p.verified then 1 else 0)
    exampleValues := st.exampleValues ++
      (if p.verified then
        (match p.exampleValue with
         | some v => if v == "" then [] else [v]
         | none => [])
       else []) }

/-- `selectorStats` update for one probe: create-if-absent (appended in
insertion order, as a JS `Map`), then bump. -/
def updateStatsList (stats : List (String × SelStats)) (p : ProbeResult) :
    List (String × SelStats) :=
  if (stats.find? (fun e => e.1 == p.selector)).isSome then
    stats.map (fun e => if e.1 == p.selector then (e.1, bumpStats e.2 p) else e)
  else
    stats ++ [(p.selector, bumpStats ⟨0, 0, []⟩ p)]

/-- The `selectorStats` map for one intent across all page samples
(`pageResult[intent] ?? []` per page). -/
def intentStats (pages : List PageProbeResults) (intent : String) :
    List (String × SelStats) :=
  pages.foldl
    (fun acc page => ((recLookup page intent).getD []).foldl updateStatsList acc) []

/-- `samplesContaining`: pages on which some probe for the intent matched. -/
def samplesContaining (pages : List PageProbeResults) (intent : String) : ℕ :=
  pages.foldl
    (fun n page =>
      if ((recLookup page intent).getD []).any (fun p => p.matched) then n + 1 else n)
    0

/-- `CONTENT_THRESHOLD = 0.34` filter:
`stats.contentCount / sampleCount >= CONTENT_THRESHOLD`, compared
exactly.  Stated integer-scaled (`34·n ≤ 100·contentCount`), which
agrees with the rational comparison for every positive sample count —
and `scoreConsensus` returns early on zero samples
(`ratioOK_iff_ratio_le` states the equivalence). -/
def ratioOK (sampleCount : ℕ) (st : SelStats) : Bool :=
  decide (34 * sampleCount ≤ 100 * st.contentCount)

/-- The sort comparator of `scoreConsensus` as a stable precedence test:
`a` sorts before (or ties with) `b` iff the JS comparator returns ≤ 0 —
content count descending, then stability score descending. -/
def selPrec (a b : String × SelStats) : Bool :=
  decide (b.2.contentCount < a.2.contentCount) ||
  (a.2.contentCount == b.2.contentCount &&
   decide (stabilityPct b.1 ≤ stabilityPct a.1))

/-- Stable insertion used to model JS `Array.prototype.sort` (stable
since ES2019): `x` is placed after every earlier element that precedes or
ties with it. -/
def insertPrec (le : α → α → Bool) (x : α) : List α → List α
  | [] => [x]
  | y :: ys => if le y x then y :: insertPrec le x ys else x :: y :: ys

/-- Stable sort by the precedence test (model of JS stable `sort`). -/
def sortPrec (le : α → α → Bool) (l : List α) : List α :=
  l.foldl (fun acc x => insertPrec le x acc) []

/-- `MAX_FALLBACKS = 5` -/
def MAX_FALLBACKS : ℕ := 5

/-- The `qualified` list for one intent: threshold filter, stable sort by
the comparator, then `slice(0, MAX_FALLBACKS)`. -/
def qualifiedFor (pages : List PageProbeResults) (intent : String) :
    List (String × SelStats) :=
  (sortPrec selPrec
    ((intentStats pages intent).filter (fun e => ratioOK pages.length e.2))).take
    MAX_FALLBACKS

/-- JS `Math.round` (round half toward +∞). -/
def jsRound (q : ℚ) : ℤ := ⌊q + 1 / 2⌋

/-- `Math.round((contentCount / sampleCount) * 100 * stabilityScore
(sel))` of the source, computed in `ℕ`:
`⌊contentCount·stabilityPct/n + 1/2⌋ = (2·contentCount·stabilityPct + n)
/ (2n)` — exactly `jsRound` of the rational for every positive `n`
(`entryConfidence_eq_jsRound`), and `scoreConsensus` returns early on
zero samples. -/
def entryConfidence (n contentCount pct : ℕ) : ℕ :=
  (2 * contentCount * pct + n) / (2 * n)

/-- The `SelectorEntry` emitted for one intent whose `qualified` list is
`best :: restq`: `Math.min(100, Math.round(...))` confidence, fallback
chain of the qualified selectors, `samplesContaining`, and
`exampleValues[0]`. -/
def mkEntry (pages : List PageProbeResults) (intent : String)
    (best : String × SelStats) (restq : List (String × SelStats)) :
    SelectorEntry :=
  { selectors := (best :: restq).map (fun e => e.1)
    confidence :=
      ((min 100 (entryConfidence pages.length best.2.contentCount
        (stabilityPct best.1)) : ℕ) : ℤ)
    sampleCount := samplesContaining pages intent
    exampleValue := best.2.exampleValues.head? }

/-- One iteration of the per-intent loop of `scoreConsensus`:
`if (qualified.length === 0) continue` else emit the entry. -/
def consensusStep (pages : List PageProbeResults)
    (out : List (String × SelectorEntry)) (intent : String) :
    List (String × SelectorEntry) :=
  match qualifiedFor pages intent with
  | [] => out
  | best :: restq => out ++ [(intent, mkEntry pages intent best restq)]

/-- `scoreConsensus` from `consensus-scorer.ts`: per intent, tally,
filter by verified ratio ≥ 0.34, sort, keep top 5, and emit a
`SelectorEntry`; intents with no qualifying selector are skipped.  The
`verifyModes` parameter is accepted, and never read, exactly as in the
source. -/
def scoreConsensus (pages : List PageProbeResults)
    (_verifyModes : List (String × VerifyMode)) :
    List (String × SelectorEntry) :=
  if pages.length = 0 then []
  else (collectIntents pages).foldl (consensusStep pages) []

/-! ## URL model

The browser's `new URL(urlStr)` builtin is external to the repository.
`parseUrl` models the WHATWG URL parser on simple absolute URLs —
`scheme://host/path?query#fragment`, without credentials, port, or
percent or backslash normalization — which is the shape of every URL the
crawler manipulates.  Scheme and host are ASCII-lowercased as the
standard requires; an input without a `://`-separated non-empty scheme
and host fails to parse (`new URL` throws, which the callers catch). -/

/-- ASCII lowercasing (the strings involved are ASCII; JS `toLowerCase`
agrees on them). -/
def lowerChar (c : Char) : Char :=
  if isUpperAlpha c then Char.ofNat (c.toNat + 32) else c

/-- ASCII lowercase of a string. -/
def asciiLower (s : String) : String := ⟨s.data.map lowerChar⟩

/-- ASCII uppercasing of one character. -/
def upperChar (c : Char) : Char :=
  if isLowerAlpha c then Char.ofNat (c.toNat - 32) else c

/-- `capitalize` from `page-classifier.ts`:
`s.charAt(0).toUpperCase() + s.slice(1)`. -/
def capitalize (s : String) : String :=
  match s.data with
  | [] => ""
  | c :: rest => ⟨upperChar c :: rest⟩

/-- Components of a parsed URL (`pathname` keeps its leading `/`;
`search` keeps its leading `?` or is empty, fragment stripped). -/
structure UrlParts where
  scheme : String
  host : String
  pathname : String
  search : String
deriving DecidableEq

/-- Split off the part before the first `://`. -/
def breakScheme : List Char → Option (List Char × List Char)
  | ':' :: '/' :: '/' :: rest => some ([], rest)
  | c :: rest => (breakScheme rest).map (fun p => (c :: p.1, p.2))
  | [] => none

/-- `[a-zA-Z]` (first character of a URL scheme). -/
def isSchemeStart (c : Char) : Bool := isLowerAlpha c || isUpperAlpha c

/-- `[a-zA-Z0-9+.-]` (subsequent characters of a URL scheme). -/
def isSchemeChar (c : Char) : Bool :=
  isLowerAlpha c || isUpperAlpha c || isDigitC c || c == '+' || c == '.' || c == '-'

/-- Model of `new URL(s)` (see the section comment). -/
def parseUrl (s : String) : Option UrlParts :=
  match breakScheme s.data with
  | none => none
  | some (sch, rest) =>
    if sch.isEmpty then none
    else if !(isSchemeStart (sch.headD ' ') && sch.all isSchemeChar) then none
    else
      let host := rest.takeWhile (fun c => c ≠ '/' && c ≠ '?' && c ≠ '#')
      if host.isEmpty then none
      else
        let after := rest.dropWhile (fun c => c ≠ '/' && c ≠ '?' && c ≠ '#')
        let pathPart : List Char :=
          match after with
          | '/' :: _ => after.takeWhile (fun c => c ≠ '?' && c ≠ '#')
          | _ => ['/']
        let afterPath := after.dropWhile (fun c => c ≠ '?' && c ≠ '#')
        let searchPart : List Char :=
          match afterPath with
          | '?' :: _ => afterPath.takeWhile (fun c => c ≠ '#')
          | _ => []
        some ⟨asciiLower ⟨sch⟩, asciiLower ⟨host⟩, ⟨pathPart⟩, ⟨searchPart⟩⟩

/-- JS `path.split('/')` (keeps empty fields, like the JS method). -/
def splitSlash : List Char → List (List Char)
  | [] => [[]]
  | '/' :: rest => [] :: splitSlash rest
  | c :: rest =>
    match splitSlash rest with
    | [] => [[c]]
    | g :: gs => (c :: g) :: gs

/-- `pathname.split('/').filter(Boolean)`: the non-empty path segments. -/
def pathSegs (p : String) : List String :=
  ((splitSlash p.data).map (fun l => (⟨l⟩ : String))).filter (fun s => s ≠ "")

/-! ## `page-classifier.ts` -/

/-- `PageTypeKey` from `shared-types`. -/
inductive PageTypeKey
  | home | product | category | cart | search | other
deriving DecidableEq

/-- The JS literal naming each page type. -/
def pageTypeName : PageTypeKey → String
  | .home => "home"
  | .product => "product"
  | .category => "category"
  | .cart => "cart"
  | .search => "search"
  | .other => "other"

/-- `jsonLdTypeToPageType` from `page-classifier.ts`: map lowercased
JSON-LD `@type` names to a page type. -/
def jsonLdTypeToPageType (types : List String) : Option PageTypeKey :=
  let normalized := types.map asciiLower
  if normalized.any (fun t =>
      t == "product" || t == "offer" || t == "individualoffer") then
    some .product
  else if normalized.any (fun t =>
      t == "itemlist" || t == "collectionpage" || t == "productcollection" ||
      t == "offeraggregate" || t == "aggregateoffer") then
    some .category
  else if normalized.any (fun t =>
      t == "order" || t == "cart" || t == "checkout") then
    some .cart
  else if normalized.any (fun t =>
      t == "website" || t == "webpage" || t == "webapplication") then
    some .home
  else if normalized.any (fun t => t == "searchresultspage") then
    some .search
  else none

/-- Keyword search of the form `/\/(kw1|kw2|…)(\/|$)/`: some `/` is
followed by one of the keywords and then a `/` or the end. -/
def kwBoundaryHit (kws : List (List Char)) : List Char → Bool
  | [] => false
  | '/' :: rest =>
    kws.any (fun kw => kw.isPrefixOf rest &&
      (match rest.drop kw.length with
       | [] => true
       | '/' :: _ => true
       | _ => false)) || kwBoundaryHit kws rest
  | _ :: rest => kwBoundaryHit kws rest

/-- Keyword search of the form `/\/(kw1|kw2|…)/` (no boundary): some `/`
is directly followed by one of the keywords. -/
def kwHit (kws : List (List Char)) : List Char → Bool
  | [] => false
  | '/' :: rest => kws.any (fun kw => kw.isPrefixOf rest) || kwHit kws rest
  | _ :: rest => kwHit kws rest

/-- `/\/(cart|basket|bag|trolley)(\/|$)/` -/
def cartKws : List (List Char) :=
  ["cart", "basket", "bag", "trolley"].map String.data

/-- `/\/(search|find|results?)(\/|$)/` — `results?` is listed as its two
expansions. -/
def searchKws : List (List Char) :=
  ["search", "find", "results", "result"].map String.data

/-- The utility-page regex
`/\/(login|signin|…|investor)/i` of `scoreUrlByType`, applied to the
already-lowercased path (the `i` flag is then inert); `orders?` is
equivalent to its stem `order` for an unbounded prefix search. -/
def utilityKws : List (List Char) :=
  ["login", "signin", "signup", "register", "account", "profile",
   "order", "wishlist", "checkout", "payment", "thank-you",
   "confirmation", "404", "about", "blog", "faq", "policy", "policies",
   "terms", "privacy", "contact", "careers", "press",
   "investor"].map String.data

/-- `[A-Z0-9]` -/
def isUpperDigit (c : Char) : Bool := isUpperAlpha c || isDigitC c

/-- `/[A-Z0-9]{4,}/.test(seg)`: some 4 consecutive characters are each
an uppercase letter or a digit. -/
def upperDigitRun4 : List Char → Bool
  | a :: b :: c :: d :: rest =>
    (isUpperDigit a && isUpperDigit b && isUpperDigit c && isUpperDigit d) ||
      upperDigitRun4 (b :: c :: d :: rest)
  | _ => false

/-- `/^[a-z0-9][a-z0-9-]{14,}$/.test(seg)`: a long kebab-case slug. -/
def longKebabSlug (s : List Char) : Bool :=
  match s with
  | c :: rest =>
    (isLowerAlpha c || isDigitC c) && decide (14 ≤ rest.length) &&
      rest.all (fun d => isLowerAlpha d || isDigitC d || d == '-')
  | [] => false

/-- The body of `scoreUrlByType` after URL parsing, on the parsed
`pathname` and `search` components. -/
def scoreUrlCore (pathname search : String) : PageTypeKey :=
  let lower := asciiLower pathname
  let parts := pathSegs pathname
  if kwBoundaryHit cartKws lower.data then .cart
  else if kwBoundaryHit searchKws lower.data || strContains search "q=" ||
      strContains search "query=" then .search
  else if kwHit utilityKws lower.data then .other
  else if parts.length = 0 then .home
  else if 3 ≤ parts.length then .product
  else if 2 ≤ parts.length && upperDigitRun4 (parts.getLastD "").data then .product
  else if 2 ≤ parts.length && longKebabSlug (parts.getLastD "").data then .product
  else if parts.length = 1 then .category
  else if parts.length = 2 then .category
  else .other

/-- `scoreUrlByType` from `page-classifier.ts` (the `try/catch` around
`new URL` returns `other` on a parse failure). -/
def scoreUrlByType (urlStr : String) : PageTypeKey :=
  match parseUrl urlStr with
  | some u => scoreUrlCore u.pathname u.search
  | none => .other

/-- The characters `escapeRegex` escapes: `[.*+?^${}()|[\]\\]`. -/
def escapeRegexChar (c : Char) : List Char :=
  if c ∈ ['.', '*', '+', '?', '^', '$', '\x7b', '\x7d', '(', ')', '|',
          '[', ']', '\\'] then ['\\', c]
  else [c]

/-- `escapeRegex` from `url-registry-builder.ts` (also the inline
`p.replace(/[.*+?^${}()|[\]\\]/g, '\\$&')` of `buildUrlPattern`). -/
def escapeRegex (s : String) : String :=
  ⟨s.data.foldr (fun c acc => escapeRegexChar c ++ acc) []⟩

/-- `array.join(sep)` -/
def joinSep (sep : String) : List String → String
  | [] => ""
  | [x] => x
  | x :: xs => x ++ sep ++ joinSep sep xs

/-- `buildUrlPattern` from `page-classifier.ts`: escape all but the final
path segment, replace the final segment with a wildcard. -/
def buildUrlPattern (urlStr : String) : String :=
  match parseUrl urlStr with
  | none => ".*"
  | some u =>
    let parts := pathSegs u.pathname
    if parts.length = 0 then "^\\/?$"
    else
      let escaped := parts.dropLast.map escapeRegex
      let pref := if 0 < escaped.length then "\\/" ++ joinSep "\\/" escaped else ""
      pref ++ "\\/[^/]+"

/-- The classification method tags of `ClassificationResult`. -/
inductive ClassifyMethod
  | jsonld | url | dom | fallback
deriving DecidableEq

/-- `PageTypeRule` from `shared-types` (optional fields as `Option`). -/
structure PageTypeRule where
  urlPattern : String
  domSignature : Option String
  jsonLdType : Option String
  label : String
  confidence : ℕ
deriving DecidableEq

/-- `ClassificationResult` from `page-classifier.ts`. -/
structure ClassificationResult where
  type : PageTypeKey
  rule : PageTypeRule
  method : ClassifyMethod
deriving DecidableEq

/-- Tiers 2–4 of `classifyPage`: URL heuristic, then the DOM signature
tier, then the fallback. -/
def classifyAfterJsonLd (domType : Option PageTypeKey) (urlStr : String) :
    ClassificationResult :=
  let urlType := scoreUrlByType urlStr
  if urlType ≠ PageTypeKey.other then
    ⟨urlType, ⟨buildUrlPattern urlStr, none, none,
      capitalize (pageTypeName urlType), 70⟩, .url⟩
  else
    match domType with
    | some t =>
      ⟨t, ⟨buildUrlPattern urlStr, none, none,
        capitalize (pageTypeName t), 55⟩, .dom⟩
    | none => ⟨.other, ⟨".*", none, none, "Other", 0⟩, .fallback⟩

/-- `classifyPage` from `page-classifier.ts`, with the two page-reading
effects supplied as inputs: `jsonLdTypes` is the value of
`extractJsonLdTypes(page)` and `domType` the value of
`detectDomType(page)` (both query the live DOM through the browser
driver, external to this embedding; `detectDomType` is only consulted
when the cascade reaches tier 3, which the lazy `match` models). -/
def classifyPage (jsonLdTypes : List String) (domType : Option PageTypeKey)
    (urlStr : String) : ClassificationResult :=
  if jsonLdTypes.length ≠ 0 then
    match jsonLdTypeToPageType jsonLdTypes with
    | some t =>
      ⟨t, ⟨buildUrlPattern urlStr, none, jsonLdTypes.head?,
        capitalize (pageTypeName t), 95⟩, .jsonld⟩
    | none => classifyAfterJsonLd domType urlStr
  else classifyAfterJsonLd domType urlStr

/-- Follows the spec's words, for comparison with the code's
`/[A-Z0-9]{4,}/` test: a SKU-like segment contains an alphanumeric run
of at least 4 characters *mixing letters and digits* — i.e. some 4
consecutive alphanumeric characters that include at least one letter and
at least one digit (any longer mixed run contains such a window). -/
def specSkuMixedRun : List Char → Bool
  | a :: b :: c :: d :: rest =>
    ((isLowerAlpha a || isUpperAlpha a || isDigitC a) &&
     (isLowerAlpha b || isUpperAlpha b || isDigitC b) &&
     (isLowerAlpha c || isUpperAlpha c || isDigitC c) &&
     (isLowerAlpha d || isUpperAlpha d || isDigitC d) &&
     (isLowerAlpha a || isUpperAlpha a || isLowerAlpha b || isUpperAlpha b ||
      isLowerAlpha c || isUpperAlpha c || isLowerAlpha d || isUpperAlpha d) &&
     (isDigitC a || isDigitC b || isDigitC c || isDigitC d)) ||
      specSkuMixedRun (b :: c :: d :: rest)
  | _ => false

/-! ## `url-registry-builder.ts` — URL pattern induction -/

/-- `ProductUrl` from `shared-types`. -/
structure ProductUrl where
  name : String
  url : String
  category : String
deriving DecidableEq

/-- `CategoryUrl` from `shared-types`. -/
structure CategoryUrl where
  name : String
  url : String
deriving DecidableEq

/-- `ValidatedPattern` from `shared-types`. -/
structure ValidatedPattern where
  pageType : PageTypeKey
  pattern : String
  examples : List String
deriving DecidableEq

/-- `PathCluster` from `url-registry-builder.ts`. -/
structure PathCluster where
  pattern : String
  examples : List String
deriving DecidableEq

/-- The group signature `` `${segments.length}:${segments[0]}` `` (JS
number interpolation is the decimal representation, `Nat.repr`). -/
def mkSig (segments : List String) : String :=
  Nat.repr segments.length ++ ":" ++ segments.headD ""

/-- One `groups.get(sig).push(path)` step (insertion-ordered `Map`,
create-if-absent). -/
def addToGroup (groups : List (String × List String)) (sig path : String) :
    List (String × List String) :=
  if (groups.find? (fun g => g.1 == sig)).isSome then
    groups.map (fun g => if g.1 == sig then (g.1, g.2 ++ [path]) else g)
  else groups ++ [(sig, [path])]

/-- The grouping loop of `clusterPaths`: group paths by
(depth, first segment) signature, skipping paths with no segments. -/
def groupPaths (paths : List String) : List (String × List String) :=
  paths.foldl
    (fun gs path =>
      let segments := pathSegs path
      if segments.length = 0 then gs
      else addToGroup gs (mkSig segments) path)
    []

/-- `sig.split(':')[0]`: the characters before the first `:`. -/
def firstField (s : String) : String :=
  ⟨s.data.takeWhile (fun c => c ≠ ':')⟩

/-- The decimal value of a digit string (the fold JS `parseInt` performs
on the digits it consumes). -/
def decVal (l : List Char) : ℕ :=
  l.foldl (fun a c => a * 10 + (c.toNat - '0'.toNat)) 0

/-- `parseInt(s, 10)` as used on the signature's depth field: the value
of the leading digit run (no digits → `NaN`, over which the
`for (let i = 0; i < depth; …)` loop runs zero times, the same as 0). -/
def jsParseIntNat (s : String) : ℕ :=
  decVal (s.data.takeWhile Char.isDigit)

/-- `/^[A-Z0-9]{4,}$/.test(seg)`: the whole segment is 4 or more
uppercase letters or digits. -/
def skuSegTest (s : String) : Bool :=
  decide (4 ≤ s.length) && s.data.all isUpperDigit

/-- One position of a cluster pattern: a literal when all members agree
on the segment, the SKU class when all members look like SKUs, otherwise
the wildcard (the loop body of the pattern build in `clusterPaths`). -/
def partAt (memberPaths : List String) (i : ℕ) : String :=
  let segValues :=
    (memberPaths.map (fun p => (pathSegs p).getD i "")).filter (fun s => s ≠ "")
  if segValues.dedup.length = 1 then escapeRegex (segValues.headD "")
  else if segValues.all skuSegTest then "[A-Z0-9]\x7b4,\x7d"
  else "[^/]+"

/-- The pattern built for one group: per segment position, a literal
when all members agree, the SKU class when all members look like SKUs,
otherwise the wildcard. -/
def clusterPattern (depth : ℕ) (memberPaths : List String) : String :=
  let parts := (List.range depth).map (partAt memberPaths)
  "\\/" ++ joinSep "\\/" parts

/-- The main branch of `clusterPaths`: one cluster per group with ≥ 2
members, keeping up to 5 example paths. -/
def mainClusters (paths : List String) : List PathCluster :=
  (groupPaths paths).foldl
    (fun acc g =>
      if g.2.length < 2 then acc
      else
        acc ++ [⟨clusterPattern (jsParseIntNat (firstField g.1)) g.2,
                 g.2.take 5⟩])
    []

/-- The singleton-fallback pattern for one path:
`'\\/' + escapeRegex(segments[0]) + segments.slice(1).map(() =>
'\\/[^/]+').join('')`. -/
def fallbackPattern (segments : List String) : String :=
  "\\/" ++ escapeRegex (segments.headD "") ++
    joinSep "" ((segments.drop 1).map (fun _ => "\\/[^/]+"))

/-- JS `Set.add` of a pattern string. -/
def addGeneric (pats : List String) (p : String) : List String :=
  if pats.contains p then pats else pats ++ [p]

/-- The `genericPatterns` set of the fallback branch (paths with ≥ 2
segments, dedupe by pattern string, insertion order). -/
def genericPatterns (paths : List String) : List String :=
  paths.foldl
    (fun acc path =>
      let segments := pathSegs path
      if 2 ≤ segments.length then addGeneric acc (fallbackPattern segments)
      else acc)
    []

/-- `pat.match(/\\\/([^\\]+)/)?.[1]`: at the first position where `\/`
is followed by a non-backslash character, the run of non-backslash
characters. -/
def extractFirstSeg : List Char → Option String
  | '\\' :: '/' :: rest =>
    (match rest with
     | c :: _ =>
       if c ≠ '\\' then some ⟨rest.takeWhile (fun d => d ≠ '\\')⟩
       else extractFirstSeg ('/' :: rest)
     | [] => none)
  | _ :: rest => extractFirstSeg rest
  | [] => none

/-- The fallback branch of `clusterPaths`: one cluster per generic
pattern, with as examples the first 3 paths whose first segment equals
the segment read back out of the pattern (JS `===` on two possibly
`undefined` values is `Option` equality). -/
def fallbackClusters (paths : List String) : List PathCluster :=
  (genericPatterns paths).map (fun pat =>
    ⟨pat,
     (paths.filter (fun p => (pathSegs p).head? == extractFirstSeg pat.data)).take 3⟩)

/-- `clusterPaths` from `url-registry-builder.ts`: groups with ≥ 2
members become patterns; if none exist and there are paths, the
singleton-fallback patterns are emitted instead. -/
def clusterPaths (paths : List String) : List PathCluster :=
  let clusters := mainClusters paths
  if clusters.length = 0 && paths.length ≠ 0 then fallbackClusters paths
  else clusters

/-- `deriveUrlPatterns` from `url-registry-builder.ts` (the `log`
callback, used only for progress lines, is dropped): the synthesized
home pattern, product patterns clustered from the products' pathnames,
category patterns (an alternation of single-segment category slugs when
there are at least 3, plus clusters of the multi-segment ones), and the
synthesized cart and search patterns. -/
def deriveUrlPatterns (products : List ProductUrl)
    (categories : List CategoryUrl) (origin : String) :
    List ValidatedPattern :=
  let homeP : ValidatedPattern := ⟨.home, "^\\/?$", [origin]⟩
  let productPaths :=
    products.filterMap (fun p => (parseUrl p.url).map (fun u => u.pathname))
  let productPatterns :=
    if productPaths.length ≠ 0 then
      (clusterPaths productPaths).map
        (fun pp => (⟨.product, pp.pattern, pp.examples.take 3⟩ : ValidatedPattern))
    else []
  let catPaths :=
    categories.filterMap (fun c => (parseUrl c.url).map (fun u => u.pathname))
  let singleSegCats := catPaths.filter (fun p => (pathSegs p).length = 1)
  let catAlt : List ValidatedPattern :=
    if 3 ≤ singleSegCats.length then
      let slugs :=
        ((singleSegCats.map (fun p => (pathSegs p).headD "")).filter
          (fun s => s ≠ "")).map escapeRegex
      [⟨.category, "^\\/(" ++ joinSep "|" slugs ++ ")\\/?$",
        singleSegCats.take 5⟩]
    else []
  let multiSegCats := catPaths.filter (fun p => 1 < (pathSegs p).length)
  let catClusters :=
    (clusterPaths multiSegCats).map
      (fun cp => (⟨.category, cp.pattern, cp.examples.take 3⟩ : ValidatedPattern))
  let catPatterns := if catPaths.length ≠ 0 then catAlt ++ catClusters else []
  let cartP : ValidatedPattern := ⟨.cart, "^\\/cart\\/?", [origin ++ "/cart"]⟩
  let searchP : ValidatedPattern := ⟨.search, "^\\/search", [origin ++ "/search-result"]⟩
  [homeP] ++ productPatterns ++ catPatterns ++ [cartP, searchP]

/-! ## A small regular-expression engine

The round-trip property of `ValidatedPattern` speaks about the pattern
*string* compiled as a JS regular expression and tested against the
example strings.  This engine interprets exactly the constructs those
pattern strings use: `^` at the start, `$`, backslash escapes, character
classes `[…]` with negation and ranges, the quantifiers `?`, `+`, `*`
and `\x7bn,\x7d`, groups of literal alternatives `(a|b|…)`, and `.`.
Like JS `RegExp.prototype.test`, matching is an unanchored search unless
the pattern starts with `^`, and a match need not reach the end of the
input unless `$` says so. -/

/-- One character-class member: a single character or a range. -/
inductive CCItem
  | single (c : Char)
  | range (lo hi : Char)
deriving DecidableEq

/-- A character class: items plus a negation flag. -/
structure CCls where
  neg : Bool
  items : List CCItem
deriving DecidableEq

/-- Class membership of one character. -/
def ccItemTest (c : Char) : CCItem → Bool
  | .single d => c == d
  | .range lo hi => lo ≤ c && c ≤ hi

/-- Character-class test (negation is exclusive-or). -/
def ccTest (k : CCls) (c : Char) : Bool :=
  (k.items.any (ccItemTest c)) != k.neg

/-- The class holding a single literal character. -/
def litC (c : Char) : CCls := ⟨false, [.single c]⟩

/-- One piece of a compiled pattern: a class occurring once, optionally,
or at least `n` times (`+` is `atLeast 1`, `*` is `atLeast 0`,
`\x7bn,\x7d` is `atLeast n`), a group of literal alternatives, or the
end anchor. -/
inductive RxPiece
  | one (k : CCls)
  | opt (k : CCls)
  | atLeast (n : ℕ) (k : CCls)
  | lits (alts : List (List Char))
  | aend
deriving DecidableEq

/-- Does the piece list match a *prefix* of the input?  (Existence
semantics, as a backtracking engine decides it: a quantified class
consumes some number `i` of leading class characters — at least `n` of
them — and the rest of the pieces match what follows; `aend` only
succeeds at the end of the input.) -/
def matSeq : List RxPiece → List Char → Bool
  | [], _ => true
  | .one k :: ps, s =>
    (match s with
     | c :: s2 => ccTest k c && matSeq ps s2
     | [] => false)
  | .opt k :: ps, s =>
    matSeq ps s ||
      (match s with
       | c :: s2 => ccTest k c && matSeq ps s2
       | [] => false)
  | .atLeast n k :: ps, s =>
    (List.range (s.length + 1)).any
      (fun i => decide (n ≤ i) && (s.take i).all (ccTest k) && matSeq ps (s.drop i))
  | .lits alts :: ps, s =>
    alts.any (fun a => a.isPrefixOf s && matSeq ps (s.drop a.length))
  | .aend :: ps, s => s.isEmpty && matSeq ps s

/-- A compiled pattern: whether it is start-anchored, plus its pieces. -/
structure Rx where
  anchored : Bool
  pieces : List RxPiece
deriving DecidableEq

/-- JS `regex.test(s)`: anchored match at the start, or search over
every suffix. -/
def rxTest (r : Rx) (s : String) : Bool :=
  if r.anchored then matSeq r.pieces s.data
  else s.data.tails.any (fun t => matSeq r.pieces t)

/-- Attach a quantifier to a class atom when the input starts with one.
Of the brace form only the open-ended `\x7bn,\x7d` occurs in the
patterns this repository produces; a brace that does not parse that way
is treated as a literal (as JS does for non-quantifier braces). -/
def applyQuant (k : CCls) (l : List Char) : RxPiece × List Char :=
  match l with
  | [] => (.one k, [])
  | c :: rest =>
    if c = '?' then (.opt k, rest)
    else if c = '+' then (.atLeast 1 k, rest)
    else if c = '*' then (.atLeast 0 k, rest)
    else if c = '\x7b' then
      (let ds := rest.takeWhile Char.isDigit
       match rest.dropWhile Char.isDigit with
       | ',' :: '\x7d' :: rest2 =>
         if ds.isEmpty then (.one k, l) else (.atLeast (decVal ds) k, rest2)
       | _ => (.one k, l))
    else (.one k, l)

/-- Parse a character-class body (after the `[` and optional `^`),
up to the closing `]`. -/
def parseClassItems : List Char → Option (List CCItem × List Char)
  | [] => none
  | ']' :: rest => some ([], rest)
  | '\\' :: c :: rest =>
    (parseClassItems rest).map (fun pr => (.single c :: pr.1, pr.2))
  | a :: '-' :: b :: rest =>
    if b = ']' then some ([.single a, .single '-'], rest)
    else (parseClassItems rest).map (fun pr => (.range a b :: pr.1, pr.2))
  | a :: rest => (parseClassItems rest).map (fun pr => (.single a :: pr.1, pr.2))

/-- Parse the literal alternatives of a group (after the `(`), up to the
closing `)`.  Only groups of literal (possibly escaped) characters
occur; anything else rejects. -/
def parseAlts (cur : List Char) (acc : List (List Char)) :
    List Char → Option (List (List Char) × List Char)
  | [] => none
  | c :: rest =>
    if c = ')' then some (acc ++ [cur], rest)
    else if c = '|' then parseAlts [] (acc ++ [cur]) rest
    else if c = '\\' then
      match rest with
      | c2 :: rest2 => parseAlts (cur ++ [c2]) acc rest2
      | [] => none
    else if c = '(' ∨ c = '[' ∨ c = '?' ∨ c = '+' ∨ c = '*' ∨ c = '\x7b' ∨
        c = '.' ∨ c = '^' ∨ c = '$' then none
    else parseAlts (cur ++ [c]) acc rest

/-- The `.` class (any character but a newline). -/
def dotCls : CCls := ⟨true, [.single '\n']⟩

/-- The quantifier characters (they may not begin a piece). -/
def quantChars : List Char := ['?', '+', '*']

/-- Parse one character class (after the `[`): optional `^`, items, the
closing `]`, then any quantifier. -/
def parseClassPiece (rest : List Char) : Option (RxPiece × List Char) :=
  match parseClassItems (if rest.head? = some '^' then rest.tail else rest) with
  | some (items, rest2) =>
    some (applyQuant ⟨rest.head? = some '^', items⟩ rest2)
  | none => none

/-- Fuel-driven core of the pattern parser; one unit of fuel per piece,
and every piece consumes at least one character, so `l.length` fuel is
always enough (`parsePiecesF_adequate`). -/
def parsePiecesF : ℕ → List Char → Option (List RxPiece)
  | _, [] => some []
  | 0, _ :: _ => none
  | f + 1, c :: rest =>
    if c = '$' then (parsePiecesF f rest).map (.aend :: ·)
    else if c = '\\' then
      match rest with
      | c2 :: rest2 =>
        (parsePiecesF f (applyQuant (litC c2) rest2).2).map
          ((applyQuant (litC c2) rest2).1 :: ·)
      | [] => none
    else if c = '[' then
      (match parseClassPiece rest with
       | some (p, rest2) => (parsePiecesF f rest2).map (p :: ·)
       | none => none)
    else if c = '(' then
      (match parseAlts [] [] rest with
       | some (alts, rest2) => (parsePiecesF f rest2).map (.lits alts :: ·)
       | none => none)
    else if c = '^' then none
    else if c = '.' then
      (parsePiecesF f (applyQuant dotCls rest).2).map
        ((applyQuant dotCls rest).1 :: ·)
    else if c ∈ quantChars then none
    else
      (parsePiecesF f (applyQuant (litC c) rest).2).map
        ((applyQuant (litC c) rest).1 :: ·)

/-- Parse a piece sequence. -/
def parsePieces (l : List Char) : Option (List RxPiece) :=
  parsePiecesF l.length l

/-- Compile a pattern string (strip a leading `^` into the anchored
flag). -/
def compileRx (pattern : String) : Option Rx :=
  match pattern.data with
  | '^' :: rest => (parsePieces rest).map (fun ps => ⟨true, ps⟩)
  | l => (parsePieces l).map (fun ps => ⟨false, ps⟩)

/-- The round-trip test: the pattern string, compiled as a regular
expression, matches the string (a pattern that fails to compile matches
nothing, as `new RegExp` would throw). -/
def patternMatches (pattern s : String) : Bool :=
  match compileRx pattern with
  | some r => rxTest r s
  | none => false

/-! ### Proof-side helper definitions for the round-trip theorems -/

/-- No quantifier character at the head (so `applyQuant` is inert). -/
def qfree (l : List Char) : Bool :=
  match l with
  | [] => true
  | c :: _ => !(c = '?' || c = '+' || c = '*' || c = '\x7b')

/-- `escapeRegex` at the character-list level. -/
def escList (l : List Char) : List Char :=
  l.foldr (fun c acc => escapeRegexChar c ++ acc) []

/-- A path in canonical form: a leading slash, then its non-empty
segments joined by single slashes (no empty segments, no trailing
slash). -/
def canonicalPath (p : String) : Prop :=
  p = "/" ++ joinSep "/" (pathSegs p)

/-- How one position of a cluster pattern relates to the corresponding
segment of a member path: the wildcard with a non-empty slash-free
segment, the SKU class with a segment it accepts, or the escaped literal
of the segment itself. -/
def PartFits (part seg : String) : Prop :=
  (part = "[^/]+" ∧ seg.data ≠ [] ∧ ∀ c ∈ seg.data, c ≠ '/') ∨
  (part = "[A-Z0-9]\x7b4,\x7d" ∧ 4 ≤ seg.data.length ∧
    ∀ c ∈ seg.data, isUpperDigit c = true) ∨
  (part = escapeRegex seg)

/-- The path's first segment contains no character that `escapeRegex`
escapes (so the fallback branch's read-back of the first segment from
the pattern recovers it exactly). -/
def plainFirstSeg (p : String) : Prop :=
  ∀ c ∈ ((pathSegs p).headD "").data, escapeRegexChar c = [c]

/-! ### The registry build loop (`buildUrlRegistry`)

`buildUrlRegistry` drives a browser: for each category page it
navigates, dismisses popups, scrolls, and extracts product links from
the DOM.  Every value coming back from the page is an oracle input
here: per category, the cleaned-and-filtered product list of the first
view (`pageProducts`), whether a load-more control exists (`hasMore`),
and the extraction result of each successful pagination click
(`pagSteps`; a failed click is the end of that list).  A navigation
error that aborts a category part-way corresponds to truncating these
lists.  What remains of the function is its state — the
`seenProductUrls` set and the `products` array — which is modelled
exactly. -/

/-- The per-category oracle inputs of one iteration of the
`buildUrlRegistry` category loop. -/
structure CatVisit where
  cat : CategoryUrl
  pageProducts : List ProductUrl
  hasMore : Bool
  pagSteps : List (List ProductUrl)

/-- The capped per-category add loop of `buildUrlRegistry`:
`if (seenProductUrls.has(p.url)) continue; if (added >= max) break;
seenProductUrls.add(p.url); products.push(p); added++`. -/
def addCapped (maxPer : ℕ) :
    List ProductUrl → List String → List ProductUrl → ℕ →
    List String × List ProductUrl
  | [], seen, products, _ => (seen, products)
  | p :: rest, seen, products, added =>
    if seen.contains p.url then addCapped maxPer rest seen products added
    else if maxPer ≤ added then (seen, products)
    else addCapped maxPer rest (seen ++ [p.url]) (products ++ [p]) (added + 1)

/-- The uncapped add loop of `crawlPaginatedProducts`: the new state
plus the number of products this pass added. -/
def pushNew (seen : List String) (products : List ProductUrl)
    (extracted : List ProductUrl) : List String × List ProductUrl × ℕ :=
  extracted.foldl
    (fun st p =>
      if st.1.contains p.url then st
      else (st.1 ++ [p.url], st.2.1 ++ [p], st.2.2 + 1))
    (seen, products, 0)

/-- The `while (pages < maxPages && products.length < maxTotal)` loop
of `crawlPaginatedProducts`: each iteration needs a successful click
(the next entry of `steps`), extracts, adds the unseen products, and
stops early when an iteration adds nothing.  `maxPages` is 5. -/
def pagLoop (maxTotal : ℕ) :
    ℕ → List (List ProductUrl) → List String → List ProductUrl →
    List String × List ProductUrl
  | fuel + 1, step :: rest, seen, products =>
    if products.length < maxTotal then
      let st2 := pushNew seen products step
      if st2.2.2 = 0 then (st2.1, st2.2.1)
      else pagLoop maxTotal fuel rest st2.1 st2.2.1
    else (seen, products)
  | _, _, seen, products => (seen, products)

/-- One iteration of the category loop of `buildUrlRegistry`
(`categories.push` and the log lines do not touch the product state and
are dropped). -/
def visitCategory (maxPer : ℕ) (st : List String × List ProductUrl)
    (v : CatVisit) : List String × List ProductUrl :=
  let st2 := addCapped maxPer v.pageProducts st.1 st.2 0
  if v.hasMore then pagLoop maxPer 5 v.pagSteps st2.1 st2.2 else st2

/-- The `products` array of the registry `buildUrlRegistry` returns:
the category loop run from an empty `seenProductUrls` set and an empty
`products` array (`maxProductsPerCategory` defaults to 200). -/
def buildProducts (maxPer : ℕ) (visits : List CatVisit) : List ProductUrl :=
  (visits.foldl (visitCategory maxPer) ([], [])).2

/-- The spec's normalized URL form, `u.origin + u.pathname`: scheme,
`://`, host, then the path, query and fragment stripped.  This is the
shape `extractProductUrls` builds inside the browser for every link it
returns. -/
def normalizedUrl (u : String) : Bool :=
  match parseUrl u with
  | some w => u == w.scheme ++ "://" ++ w.host ++ w.pathname
  | none => false

/-- The dedup invariant of the registry build state: the collected
products have pairwise-distinct URLs, every collected URL is in the
seen set, and every collected product satisfies `Q`. -/
def RegInv (Q : ProductUrl → Prop) (st : List String × List ProductUrl) : Prop :=
  (st.2.map (fun p => p.url)).Nodup ∧ (∀ p ∈ st.2, p.url ∈ st.1) ∧
    ∀ p ∈ st.2, Q p

/-- A one-category input used by the C8 witness: the first page lists
the same product URL twice, and the pagination pass re-encounters it a
third time next to one genuinely new product. -/
def visD : CatVisit :=
  ⟨⟨"Sofas", "https://a.com/c/sofas"⟩,
   [⟨"Alpha Sofa", "https://a.com/p/alpha", "Sofas"⟩,
    ⟨"Alpha Sofa (deal)", "https://a.com/p/alpha", "Sofas"⟩],
   true,
   [[⟨"Alpha Sofa", "https://a.com/p/alpha", "Sofas"⟩,
     ⟨"Beta Sofa", "https://a.com/p/beta", "Sofas"⟩]]⟩

/-! ### Concrete consensus inputs used by witnesses and counterexamples -/

/-- Scenario C of the spec: three page samples; a price selector matches
on all three and passes price verification on samples 1 and 3; a second
candidate matches everywhere but never verifies. -/
def scnC : List PageProbeResults :=
  [ [("price", [⟨".price-now", true, true, some "Rs 1,399"⟩,
                ⟨".promo-price", true, false, none⟩])],
    [("price", [⟨".price-now", true, false, none⟩,
                ⟨".promo-price", true, false, none⟩])],
    [("price", [⟨".price-now", true, true, some "Rs 1,499"⟩,
                ⟨".promo-price", true, false, none⟩])] ]

/-- Three page samples on which a price selector matches everywhere but
passes content verification on exactly one — verified ratio exactly
1/3. -/
def oneThirdPages : List PageProbeResults :=
  [ [("price", [⟨"#price", true, true, some "Rs 999"⟩])],
    [("price", [⟨"#price", true, false, none⟩])],
    [("price", [⟨"#price", true, false, none⟩])] ]

/-! ### Structural lemmas about the consensus engine -/

/-- The integer-scaled threshold test used by `ratioOK` is the exact
rational comparison `0.34 ≤ contentCount / sampleCount` whenever the
sample count is positive. -/
theorem ratioOK_iff_ratio_le (n : ℕ) (hn : 0 < n) (st : SelStats) :
    ratioOK n st = true ↔
      (34 : ℚ) / 100 ≤ (st.contentCount : ℚ) / (n : ℚ) := by
  unfold ratioOK
  rw [decide_eq_true_eq, div_le_div_iff₀ (by norm_num) (by exact_mod_cast hn),
    mul_comm ((st.contentCount : ℚ)) 100]
  norm_cast

/-- The integer-scaled confidence equals `Math.round` of the source's
rational expression for every positive sample count. -/
theorem entryConfidence_eq_jsRound (n c pct : ℕ) (hn : 0 < n) :
    (entryConfidence n c pct : ℤ) =
      jsRound ((c : ℚ) / (n : ℚ) * 100 * ((pct : ℚ) / 100)) := by
  unfold entryConfidence jsRound
  have hn0 : (n : ℚ) ≠ 0 := by exact_mod_cast hn.ne'
  have harg : (c : ℚ) / n * 100 * ((pct : ℚ) / 100) + 1 / 2 =
      ((2 * c * pct + n : ℕ) : ℚ) / ((2 * n : ℕ) : ℚ) := by
    push_cast
    field_simp
    ring
  rw [harg, Rat.floor_natCast_div_natCast]
  exact Int.ofNat_tdiv _ _

theorem mem_insertPrec (le : α → α → Bool) (a x : α) :
    ∀ l : List α, x ∈ insertPrec le a l ↔ x = a ∨ x ∈ l := by
  intro l
  induction l with
  | nil => simp [insertPrec]
  | cons y ys ih =>
    unfold insertPrec
    by_cases h : le y a = true
    · rw [if_pos h]
      simp only [List.mem_cons, ih]
      tauto
    · rw [if_neg h]
      simp only [List.mem_cons]

theorem mem_sortPrec_aux (le : α → α → Bool) (x : α) :
    ∀ (l : List α) (acc : List α),
      x ∈ l.foldl (fun a b => insertPrec le b a) acc ↔ x ∈ acc ∨ x ∈ l := by
  intro l
  induction l with
  | nil => simp
  | cons y ys ih =>
    intro acc
    simp only [List.foldl_cons, ih, mem_insertPrec, List.mem_cons]
    tauto

theorem mem_sortPrec (le : α → α → Bool) (x : α) (l : List α) :
    x ∈ sortPrec le l ↔ x ∈ l := by
  unfold sortPrec
  rw [mem_sortPrec_aux]
  simp

/-- Every pair in `scoreConsensus` output comes from a non-empty
`qualified` list via `mkEntry`. -/
theorem mem_consensus_fold (pages : List PageProbeResults) :
    ∀ (l : List String) (acc : List (String × SelectorEntry))
      (p : String × SelectorEntry),
      p ∈ l.foldl (consensusStep pages) acc →
      p ∈ acc ∨ ∃ best restq, qualifiedFor pages p.1 = best :: restq ∧
        p.2 = mkEntry pages p.1 best restq := by
  intro l
  induction l with
  | nil => intro acc p h; exact Or.inl h
  | cons i is ih =>
    intro acc p h
    rw [List.foldl_cons] at h
    rcases ih _ p h with hacc | hnew
    · unfold consensusStep at hacc
      cases hq : qualifiedFor pages i with
      | nil => rw [hq] at hacc; exact Or.inl hacc
      | cons b r =>
        rw [hq] at hacc
        rcases List.mem_append.mp hacc with h1 | h2
        · exact Or.inl h1
        · right
          have hp : p = (i, mkEntry pages i b r) := by simpa using h2
          subst hp
          exact ⟨b, r, hq, rfl⟩
    · exact Or.inr hnew

theorem mem_scoreConsensus (pages : List PageProbeResults)
    (modes : List (String × VerifyMode)) (p : String × SelectorEntry)
    (h : p ∈ scoreConsensus pages modes) :
    ∃ best restq, qualifiedFor pages p.1 = best :: restq ∧
      p.2 = mkEntry pages p.1 best restq := by
  unfold scoreConsensus at h
  by_cases h0 : pages.length = 0
  · rw [if_pos h0] at h; cases h
  · rw [if_neg h0] at h
    rcases mem_consensus_fold pages _ _ _ h with habs | hgood
    · cases habs
    · exact hgood

theorem recLookup_some_mem (m : List (String × α)) (k : String) (v : α)
    (h : recLookup m k = some v) : (k, v) ∈ m := by
  unfold recLookup at h
  cases hf : m.find? (fun e => e.1 == k) with
  | none => rw [hf] at h; cases h
  | some e =>
    rw [hf] at h
    have hk := List.find?_some hf
    have hm : e ∈ m := List.mem_of_find?_eq_some hf
    have hk1 : e.1 = k := by simpa using hk
    have hv : e.2 = v := by simpa using h
    have he : e = (k, v) := by
      obtain ⟨e1, e2⟩ := e; simp_all
    rw [← he]; exact hm

theorem scoreConsensus_length_pos (pages : List PageProbeResults)
    (modes : List (String × VerifyMode)) (p : String × SelectorEntry)
    (h : p ∈ scoreConsensus pages modes) : 0 < pages.length := by
  unfold scoreConsensus at h
  by_cases h0 : pages.length = 0
  · rw [if_pos h0] at h; cases h
  · exact Nat.pos_of_ne_zero h0

/-! ## Claim theorems about the consensus engine -/

/-- Claim C2: every `SelectorEntry` produced by `scoreConsensus` has a
confidence value between 0 and 100 inclusive, for every input list of
page probe results and every verify-mode map. -/
theorem consensus_confidence_in_range (pages : List PageProbeResults)
    (modes : List (String × VerifyMode)) (intent : String)
    (e : SelectorEntry)
    (h : recLookup (scoreConsensus pages modes) intent = some e) :
    0 ≤ e.confidence ∧ e.confidence ≤ 100 := by
  have hmem := recLookup_some_mem _ _ _ h
  rcases mem_scoreConsensus pages modes _ hmem with ⟨best, restq, _, he⟩
  simp only at he
  rw [he]
  simp only [mkEntry]
  refine ⟨Int.ofNat_nonneg _, ?_⟩
  exact_mod_cast min_le_left 100
    (entryConfidence pages.length best.2.contentCount (stabilityPct best.1))

/-- Claim C3: every emitted `SelectorEntry` has between 1 and 5
selectors in its fallback chain, and an intent whose `qualified` list is
empty is entirely absent from the output map. -/
theorem consensus_fallback_chain_bounds (pages : List PageProbeResults)
    (modes : List (String × VerifyMode)) (intent : String) :
    (∀ e, recLookup (scoreConsensus pages modes) intent = some e →
      1 ≤ e.selectors.length ∧ e.selectors.length ≤ 5) ∧
    (qualifiedFor pages intent = [] →
      recLookup (scoreConsensus pages modes) intent = none) := by
  constructor
  · intro e h
    have hmem := recLookup_some_mem _ _ _ h
    rcases mem_scoreConsensus pages modes _ hmem with ⟨best, restq, hq, he⟩
    simp only at he hq
    rw [he]
    unfold mkEntry
    simp only [List.length_map]
    constructor
    · exact Nat.succ_le_succ (Nat.zero_le _)
    · have : (best :: restq).length ≤ MAX_FALLBACKS := by
        rw [← hq]
        unfold qualifiedFor
        exact List.length_take_le _ _
      exact this
  · intro hempty
    cases hl : recLookup (scoreConsensus pages modes) intent with
    | none => rfl
    | some e =>
      have hmem := recLookup_some_mem _ _ _ hl
      rcases mem_scoreConsensus pages modes _ hmem with ⟨best, restq, hq, _⟩
      simp only at hq
      rw [hempty] at hq
      cases hq

/-- Claim C1 (amended): a selector appearing in an emitted fallback
chain always has verified ratio `≥ 0.34` (not `≥ 1/3`), and the
threshold filter retains a tallied selector exactly when
`34·sampleCount ≤ 100·contentCount`. -/
theorem consensus_threshold_amended (pages : List PageProbeResults)
    (modes : List (String × VerifyMode)) (intent : String)
    (e : SelectorEntry) (sel : String)
    (h : recLookup (scoreConsensus pages modes) intent = some e)
    (hs : sel ∈ e.selectors) :
    (∃ st, (sel, st) ∈ intentStats pages intent ∧
      (34 : ℚ) / 100 ≤ (st.contentCount : ℚ) / (pages.length : ℚ)) ∧
    ∀ q : String × SelStats,
      (q ∈ (intentStats pages intent).filter
          (fun x => ratioOK pages.length x.2) ↔
        q ∈ intentStats pages intent ∧ ratioOK pages.length q.2 = true) := by
  have hmem := recLookup_some_mem _ _ _ h
  have hn : 0 < pages.length := scoreConsensus_length_pos pages modes _ hmem
  rcases mem_scoreConsensus pages modes _ hmem with ⟨best, restq, hq, he⟩
  simp only at hq he
  constructor
  · rw [he] at hs
    unfold mkEntry at hs
    simp only [List.mem_map] at hs
    rcases hs with ⟨q, hqmem, hqsel⟩
    obtain ⟨q1, q2⟩ := q
    rw [← hq] at hqmem
    have hsort : (q1, q2) ∈ sortPrec selPrec
        ((intentStats pages intent).filter (fun x => ratioOK pages.length x.2)) := by
      unfold qualifiedFor at hqmem
      exact List.mem_of_mem_take hqmem
    rw [mem_sortPrec] at hsort
    rw [List.mem_filter] at hsort
    simp only at hqsel
    subst hqsel
    exact ⟨q2, hsort.1, (ratioOK_iff_ratio_le pages.length hn q2).mp hsort.2⟩
  · intro q
    exact List.mem_filter

/-- Claim C10: for the empty list of page probe samples,
`scoreConsensus` returns the empty map for every verify-mode map. -/
theorem consensus_empty_input (modes : List (String × VerifyMode)) :
    scoreConsensus [] modes = [] := rfl

/-- Claim C1 counterexample: with three samples and a price selector
verified on exactly one of them, the tallied verified ratio is exactly
1/3 — not below 1/3, so by the claim the selector must be retained —
yet `scoreConsensus` discards it and emits nothing (the code's threshold
is `CONTENT_THRESHOLD = 0.34`, and `1/3 < 0.34`). -/
theorem consensus_threshold_cex :
    intentStats oneThirdPages "price" = [("#price", ⟨3, 1, ["Rs 999"]⟩)] ∧
    ¬ ((1 : ℚ) / 3 < 1 / 3) ∧
    scoreConsensus oneThirdPages [] = [] :=
  ⟨by decide, by norm_num, by decide⟩

/-- Claim C1 witness: on the Scenario C input the retained price
selector indeed has verified ratio ≥ 0.34 (it is 2/3). -/
theorem consensus_threshold_amended_witness :
    ∃ st, (".price-now", st) ∈ intentStats scnC "price" ∧
      (34 : ℚ) / 100 ≤ (st.contentCount : ℚ) / (scnC.length : ℚ) :=
  (consensus_threshold_amended scnC [] "price"
    ⟨[".price-now"], 47, 3, some "Rs 1,399"⟩ ".price-now"
    (by decide) (by decide)).1

/-- Claim C2 witness: the entry emitted for Scenario C has confidence 47,
inside `[0, 100]`. -/
theorem consensus_confidence_in_range_witness :
    0 ≤ (SelectorEntry.mk [".price-now"] 47 3 (some "Rs 1,399")).confidence ∧
    (SelectorEntry.mk [".price-now"] 47 3 (some "Rs 1,399")).confidence ≤ 100 :=
  consensus_confidence_in_range scnC [] "price" _ (by decide)

/-- Claim C3 witness: the Scenario C entry has one selector (within
`[1, 5]`), and on the 1-of-3 input no entry at all is emitted for
`price`. -/
theorem consensus_fallback_chain_bounds_witness :
    (1 ≤ (SelectorEntry.mk [".price-now"] 47 3 (some "Rs 1,399")).selectors.length ∧
      (SelectorEntry.mk [".price-now"] 47 3 (some "Rs 1,399")).selectors.length ≤ 5) ∧
    recLookup (scoreConsensus oneThirdPages []) "price" = none :=
  ⟨(consensus_fallback_chain_bounds scnC [] "price").1 _ (by decide),
   (consensus_fallback_chain_bounds oneThirdPages [] "price").2 (by decide)⟩

/-! ## Claim theorems about the page classifier -/

/-- Claim C7: whenever the extracted JSON-LD types include `Product`,
`classifyPage` returns page type `product` with rule confidence 95 and
method `jsonld`, for every URL string and every DOM-tier outcome (so
neither the URL heuristic nor the DOM signature tier influences the
result). -/
theorem classify_jsonld_product (types : List String)
    (domType : Option PageTypeKey) (urlStr : String)
    (h : "Product" ∈ types) :
    (classifyPage types domType urlStr).type = PageTypeKey.product ∧
    (classifyPage types domType urlStr).rule.confidence = 95 ∧
    (classifyPage types domType urlStr).method = ClassifyMethod.jsonld := by
  have hne : types.length ≠ 0 := by
    cases types with
    | nil => cases h
    | cons a as => simp
  have hany : (types.map asciiLower).any (fun t =>
      t == "product" || t == "offer" || t == "individualoffer") = true := by
    refine List.any_eq_true.mpr ⟨"product", List.mem_map.mpr ⟨"Product", h, by decide⟩, by decide⟩
  have hmap : jsonLdTypeToPageType types = some PageTypeKey.product := by
    unfold jsonLdTypeToPageType
    simp only [hany]
    rfl
  unfold classifyPage
  rw [if_pos hne, hmap]
  exact ⟨rfl, rfl, rfl⟩

/-- Claim C6 counterexample: the URL `https://x.com/shop/SALE` has two
path segments, hits no cart, search, or utility keyword and no search
query parameter, and its final segment `SALE` neither contains an
alphanumeric run of ≥ 4 characters *mixing letters and digits* nor is a
long kebab slug — so the claim demands `category` — yet the code's
`/[A-Z0-9]{4,}/` test fires on the all-letter run and `scoreUrlByType`
returns `product`. -/
theorem url_tier_category_cex :
    pathSegs "/shop/SALE" = ["shop", "SALE"] ∧
    specSkuMixedRun "SALE".data = false ∧
    longKebabSlug "SALE".data = false ∧
    kwBoundaryHit cartKws (asciiLower "/shop/SALE").data = false ∧
    kwBoundaryHit searchKws (asciiLower "/shop/SALE").data = false ∧
    kwHit utilityKws (asciiLower "/shop/SALE").data = false ∧
    scoreUrlByType "https://x.com/shop/SALE" = PageTypeKey.product ∧
    (classifyPage [] none "https://x.com/shop/SALE").type =
      PageTypeKey.product := by
  decide

/-- Claim C6 (amended): for a URL that parses, whose path has exactly 1
or 2 segments, that hits no cart keyword, no search keyword or `q=` or
`query=` query parameter, and no utility keyword, and whose final
segment neither contains a run of 4 consecutive characters each an
uppercase letter or digit (the code's SKU test) nor is a kebab slug of
15 or more characters, the URL tier classifies `category`, and
`classifyPage` (with no JSON-LD types) emits that with rule confidence
70 and method `url`. -/
theorem url_tier_category_amended (urlStr : String) (u : UrlParts)
    (domType : Option PageTypeKey)
    (hu : parseUrl urlStr = some u)
    (hlen : (pathSegs u.pathname).length = 1 ∨ (pathSegs u.pathname).length = 2)
    (hcart : kwBoundaryHit cartKws (asciiLower u.pathname).data = false)
    (hsearch : kwBoundaryHit searchKws (asciiLower u.pathname).data = false)
    (hq1 : strContains u.search "q=" = false)
    (hq2 : strContains u.search "query=" = false)
    (hutil : kwHit utilityKws (asciiLower u.pathname).data = false)
    (hsku : upperDigitRun4 ((pathSegs u.pathname).getLastD "").data = false)
    (hkeb : longKebabSlug ((pathSegs u.pathname).getLastD "").data = false) :
    scoreUrlByType urlStr = PageTypeKey.category ∧
    classifyPage [] domType urlStr =
      ⟨PageTypeKey.category,
       ⟨buildUrlPattern urlStr, none, none, "Category", 70⟩,
       ClassifyMethod.url⟩ := by
  have hcore : scoreUrlCore u.pathname u.search = PageTypeKey.category := by
    unfold scoreUrlCore
    simp only [hcart, hsearch, hq1, hq2, hutil, hsku, hkeb,
      Bool.false_or, Bool.or_false, Bool.and_false, if_false]
    rcases hlen with h1 | h2
    · simp [h1]
    · simp [h2]
  have hurl : scoreUrlByType urlStr = PageTypeKey.category := by
    unfold scoreUrlByType
    rw [hu]
    exact hcore
  refine ⟨hurl, ?_⟩
  unfold classifyPage
  rw [if_neg (by simp)]
  unfold classifyAfterJsonLd
  simp only [hurl]
  rfl

/-- Claim C6 witness: `https://x.com/mattress` satisfies every
hypothesis and classifies as `category` with confidence 70. -/
theorem url_tier_category_amended_witness :
    scoreUrlByType "https://x.com/mattress" = PageTypeKey.category ∧
    classifyPage [] none "https://x.com/mattress" =
      ⟨PageTypeKey.category,
       ⟨buildUrlPattern "https://x.com/mattress", none, none, "Category", 70⟩,
       ClassifyMethod.url⟩ :=
  url_tier_category_amended "https://x.com/mattress"
    ⟨"https", "x.com", "/mattress", ""⟩ none (by decide) (Or.inl (by decide))
    (by decide) (by decide) (by decide) (by decide) (by decide) (by decide)
    (by decide)

/-- Claim C7 witness: a page with JSON-LD types
`["BreadcrumbList", "Product"]` classifies as `product` at confidence 95
via `jsonld` even for a search-shaped URL and a contradicting DOM
signal. -/
theorem classify_jsonld_product_witness :
    (classifyPage ["BreadcrumbList", "Product"] (some PageTypeKey.category)
      "https://x.com/weird/shape?q=1").type = PageTypeKey.product ∧
    (classifyPage ["BreadcrumbList", "Product"] (some PageTypeKey.category)
      "https://x.com/weird/shape?q=1").rule.confidence = 95 ∧
    (classifyPage ["BreadcrumbList", "Product"] (some PageTypeKey.category)
      "https://x.com/weird/shape?q=1").method = ClassifyMethod.jsonld :=
  classify_jsonld_product ["BreadcrumbList", "Product"]
    (some PageTypeKey.category) "https://x.com/weird/shape?q=1" (by decide)

/-! ## Claim theorems about URL pattern induction -/

/-- Claim C5: on the four Scenario D paths, `clusterPaths` emits exactly
one pattern: the three depth-3 `mattress` paths grouped together, built
from the literal `mattress`, the wildcard `[^/]+` for the varying middle
segment, and the SKU class `[A-Z0-9]\x7b4,\x7d` for the final segment —
and `/bed/d/SKU4` is not in its member group. -/
theorem clusterPaths_scenarioD :
    clusterPaths ["/mattress/a/SKU1", "/mattress/b/SKU2",
      "/mattress/c/SKU3", "/bed/d/SKU4"] =
      [⟨"\\/mattress\\/[^/]+\\/[A-Z0-9]\x7b4,\x7d",
        ["/mattress/a/SKU1", "/mattress/b/SKU2", "/mattress/c/SKU3"]⟩] := by
  decide

/-- Claim C4 counterexample: with no products and no categories,
`buildUrlRegistry`'s pattern derivation emits exactly the synthesized
home, cart and search patterns — and each one's regular expression fails
to match that same pattern's stored example, because the examples are
full URLs while the patterns are anchored path patterns. -/
theorem pattern_roundtrip_cex :
    deriveUrlPatterns [] [] "https://a.com" =
      [⟨PageTypeKey.home, "^\\/?$", ["https://a.com"]⟩,
       ⟨PageTypeKey.cart, "^\\/cart\\/?", ["https://a.com/cart"]⟩,
       ⟨PageTypeKey.search, "^\\/search", ["https://a.com/search-result"]⟩] ∧
    patternMatches "^\\/?$" "https://a.com" = false ∧
    patternMatches "^\\/cart\\/?" "https://a.com/cart" = false ∧
    patternMatches "^\\/search" "https://a.com/search-result" = false := by
  decide

/-- Claim C9 counterexample: one product whose path's first segment
contains a dot (`/a.b/x`).  The singleton-fallback branch escapes the
dot in the pattern, then reads the first segment back out of the pattern
as just `a` (the capture `[^\\]+` stops at the escaping backslash), so
no path passes the example filter, and `deriveUrlPatterns` emits a
product `ValidatedPattern` whose examples list is empty. -/
theorem nonempty_examples_cex :
    deriveUrlPatterns [⟨"Widget", "https://a.com/a.b/x", "c"⟩] []
      "https://a.com" =
      [⟨PageTypeKey.home, "^\\/?$", ["https://a.com"]⟩,
       ⟨PageTypeKey.product, "\\/a\\.b\\/[^/]+", []⟩,
       ⟨PageTypeKey.cart, "^\\/cart\\/?", ["https://a.com/cart"]⟩,
       ⟨PageTypeKey.search, "^\\/search", ["https://a.com/search-result"]⟩] := by
  decide

/-! ### Parser infrastructure lemmas -/

theorem applyQuant_le (k : CCls) (l : List Char) :
    (applyQuant k l).2.length ≤ l.length := by
  unfold applyQuant
  match l with
  | [] => simp
  | c :: rest =>
    have hdw : (rest.dropWhile Char.isDigit).length ≤ rest.length :=
      (List.dropWhile_sublist _).length_le
    simp only
    split_ifs with h1 h2 h3 h4 h5
    · simp
    · simp
    · simp
    · split <;> simp
    · split
      next rest2 heq =>
        rw [heq] at hdw
        simp only [List.length_cons] at hdw
        simp only [List.length_cons]
        omega
      next => simp
    · simp

theorem parseClassItems_lt : ∀ (l : List Char) (pr : List CCItem × List Char),
    parseClassItems l = some pr → pr.2.length < l.length := by
  intro l
  induction l using parseClassItems.induct with
  | case1 => intro pr h; cases h
  | case2 rest =>
    intro pr h
    simp only [parseClassItems] at h
    injection h with h2
    rw [← h2]
    simp
  | case3 c rest ih =>
    intro pr h
    simp only [parseClassItems] at h
    cases hr : parseClassItems rest with
    | none => rw [hr] at h; cases h
    | some pr2 =>
      rw [hr] at h
      injection h with h2
      have := ih pr2 hr
      rw [← h2]
      simp only [List.length_cons]
      omega
  | case4 a rest h1 h2 =>
    intro pr h
    simp only [parseClassItems, if_true, ite_true] at h
    injection h with h2
    rw [← h2]
    simp only [List.length_cons]
    omega
  | case5 a b rest h1 h2 hb ih =>
    intro pr h
    simp only [parseClassItems, if_neg hb] at h
    cases hr : parseClassItems rest with
    | none => rw [hr] at h; cases h
    | some pr2 =>
      rw [hr] at h
      injection h with h2
      have := ih pr2 hr
      rw [← h2]
      simp only [List.length_cons]
      omega
  | case6 a rest h1 h2 h3 ih =>
    intro pr h
    simp only [parseClassItems] at h
    cases hr : parseClassItems rest with
    | none => rw [hr] at h; cases h
    | some pr2 =>
      rw [hr] at h
      injection h with h2
      have := ih pr2 hr
      rw [← h2]
      simp only [List.length_cons]
      omega

theorem parseAlts_lt : ∀ (cur : List Char) (acc : List (List Char))
    (l : List Char) (pr : List (List Char) × List Char),
    parseAlts cur acc l = some pr → pr.2.length < l.length := by
  intro cur acc l
  induction cur, acc, l using parseAlts.induct with
  | case1 cur acc => intro pr h; cases h
  | case2 cur acc rest =>
    intro pr h
    unfold parseAlts at h
    rw [if_pos rfl] at h
    injection h with h2
    rw [← h2]
    simp
  | case3 cur acc rest hne ih =>
    intro pr h
    unfold parseAlts at h
    rw [if_neg (by decide), if_pos rfl] at h
    have := ih pr h
    simp only [List.length_cons]
    omega
  | case4 cur acc c2 rest2 h1 h2 ih =>
    intro pr h
    unfold parseAlts at h
    rw [if_neg (by decide), if_neg (by decide), if_pos rfl] at h
    have := ih pr h
    simp only [List.length_cons]
    omega
  | case5 cur acc h1 h2 =>
    intro pr h
    unfold parseAlts at h
    rw [if_neg (by decide), if_neg (by decide), if_pos rfl] at h
    cases h
  | case6 cur acc c rest h1 h2 h3 hmem =>
    intro pr h
    unfold parseAlts at h
    rw [if_neg h1, if_neg h2, if_neg h3, if_pos hmem] at h
    cases h
  | case7 cur acc c rest h1 h2 h3 hmem ih =>
    intro pr h
    unfold parseAlts at h
    rw [if_neg h1, if_neg h2, if_neg h3, if_neg hmem] at h
    have := ih pr h
    simp only [List.length_cons]
    omega

theorem parseClassPiece_lt (rest : List Char) (pr : RxPiece × List Char)
    (h : parseClassPiece rest = some pr) : pr.2.length < rest.length := by
  unfold parseClassPiece at h
  cases hpc : parseClassItems (if rest.head? = some '^' then rest.tail else rest) with
  | none => rw [hpc] at h; cases h
  | some pr2 =>
    rw [hpc] at h
    simp only [] at h
    injection h with h2
    have hlt := parseClassItems_lt _ _ hpc
    have hb : (if rest.head? = some '^' then rest.tail else rest).length ≤
        rest.length := by
      split_ifs
      · cases rest <;> simp
      · exact le_refl _
    have hq := applyQuant_le (⟨rest.head? = some '^', pr2.1⟩ : CCls) pr2.2
    rw [← h2]
    calc (applyQuant ⟨decide (rest.head? = some '^'), pr2.1⟩ pr2.2).2.length
        ≤ pr2.2.length := hq
      _ < rest.length := lt_of_lt_of_le hlt hb

theorem parsePiecesF_mono : ∀ (n : ℕ) (l : List Char) (f g : ℕ),
    l.length ≤ n → l.length ≤ f → l.length ≤ g →
    parsePiecesF f l = parsePiecesF g l := by
  intro n
  induction n with
  | zero =>
    intro l f g hn _ _
    have hl : l = [] := List.length_eq_zero.mp (Nat.le_zero.mp hn)
    subst hl
    cases f <;> cases g <;> rfl
  | succ n ih =>
    intro l f g hn hf hg
    match l with
    | [] => cases f <;> cases g <;> rfl
    | c :: rest =>
      simp only [List.length_cons] at hn hf hg
      match f, g with
      | 0, _ => omega
      | _ + 1, 0 => omega
      | f2 + 1, g2 + 1 =>
        unfold parsePiecesF
        split_ifs with h1 h2 h3 h4 h5 h6 h7
        · rw [ih rest f2 g2 (by omega) (by omega) (by omega)]
        · cases rest with
          | nil => rfl
          | cons c2 rest2 =>
            simp only [List.length_cons] at hn hf hg
            simp only []
            have hq := applyQuant_le (litC c2) rest2
            rw [ih _ f2 g2 (by omega) (by omega) (by omega)]
        · split
          next p rest2 heq =>
            have hlt := parseClassPiece_lt _ _ heq
            simp only [] at hlt
            rw [ih rest2 f2 g2 (by omega) (by omega) (by omega)]
          next => rfl
        · split
          next alts rest2 heq =>
            have hlt := parseAlts_lt _ _ _ _ heq
            simp only at hlt
            rw [ih rest2 f2 g2 (by omega) (by omega) (by omega)]
          next => rfl
        · rfl
        · have hq := applyQuant_le dotCls rest
          rw [ih _ f2 g2 (by omega) (by omega) (by omega)]
        · rfl
        · have hq := applyQuant_le (litC c) rest
          rw [ih _ f2 g2 (by omega) (by omega) (by omega)]

theorem parsePiecesF_adequate (f : ℕ) (l : List Char) (h : l.length ≤ f) :
    parsePiecesF f l = parsePieces l :=
  parsePiecesF_mono l.length l f l.length (le_refl _) h (le_refl _)

/-- One-step unfolding of `parsePieces` with the recursive occurrences
re-expressed through `parsePieces` itself. -/
theorem parsePieces_cons (c : Char) (rest : List Char) :
    parsePieces (c :: rest) =
      if c = '$' then (parsePieces rest).map (.aend :: ·)
      else if c = '\\' then
        (match rest with
         | c2 :: rest2 =>
           (parsePieces (applyQuant (litC c2) rest2).2).map
             ((applyQuant (litC c2) rest2).1 :: ·)
         | [] => none)
      else if c = '[' then
        (match parseClassPiece rest with
         | some (p, rest2) => (parsePieces rest2).map (p :: ·)
         | none => none)
      else if c = '(' then
        (match parseAlts [] [] rest with
         | some (alts, rest2) => (parsePieces rest2).map (.lits alts :: ·)
         | none => none)
      else if c = '^' then none
      else if c = '.' then
        (parsePieces (applyQuant dotCls rest).2).map
          ((applyQuant dotCls rest).1 :: ·)
      else if c ∈ quantChars then none
      else
        (parsePieces (applyQuant (litC c) rest).2).map
          ((applyQuant (litC c) rest).1 :: ·) := by
  show parsePiecesF (rest.length + 1) (c :: rest) = _
  unfold parsePiecesF
  split_ifs with h1 h2 h3 h4 h5 h6 h7
  · rw [parsePiecesF_adequate rest.length rest (le_refl _)]
  · cases rest with
    | nil => rfl
    | cons c2 rest2 =>
      simp only []
      have hq := applyQuant_le (litC c2) rest2
      rw [parsePiecesF_adequate _ _ (by simp only [List.length_cons]; omega)]
  · cases hpc : parseClassPiece rest with
    | none => rfl
    | some pr =>
      obtain ⟨p, rest2⟩ := pr
      have hlt := parseClassPiece_lt _ _ hpc
      simp only [] at hlt
      simp only []
      rw [parsePiecesF_adequate _ _ (by omega)]
  · cases hpa : parseAlts [] [] rest with
    | none => rfl
    | some pr =>
      obtain ⟨alts, rest2⟩ := pr
      have hlt := parseAlts_lt _ _ _ _ hpa
      simp only [] at hlt
      simp only []
      rw [parsePiecesF_adequate _ _ (by omega)]
  · rfl
  · have hq := applyQuant_le dotCls rest
    rw [parsePiecesF_adequate _ _ (by omega)]
  · rfl
  · have hq := applyQuant_le (litC c) rest
    rw [parsePiecesF_adequate _ _ (by omega)]

theorem applyQuant_qfree (k : CCls) (l : List Char) (h : qfree l = true) :
    applyQuant k l = (.one k, l) := by
  cases l with
  | nil => rfl
  | cons c rest =>
    unfold qfree at h
    simp only [Bool.not_eq_true', decide_eq_false_iff_not, not_or,
      Bool.not_or, Bool.and_eq_true, Bool.not_eq_true, decide_eq_false_iff_not] at h
    obtain ⟨⟨⟨q1, q2⟩, q3⟩, q4⟩ := h
    unfold applyQuant
    simp only []
    rw [if_neg q1, if_neg q2, if_neg q3, if_neg q4]

theorem escList_cons (c : Char) (l : List Char) :
    escList (c :: l) = escapeRegexChar c ++ escList l := rfl

theorem escapeRegex_data (s : String) : (escapeRegex s).data = escList s.data := rfl

theorem qfree_escList (l rest : List Char) (h : qfree rest = true) :
    qfree (escList l ++ rest) = true := by
  cases l with
  | nil => simpa [escList]
  | cons c l2 =>
    rw [escList_cons, List.append_assoc]
    unfold escapeRegexChar
    split_ifs with hc
    · rfl
    · simp only [List.mem_cons, List.not_mem_nil, or_false, not_or] at hc
      unfold qfree
      simp only [List.cons_append]
      obtain ⟨h1, h2, h3, h4, h5, h6, h7, h8, h9, h10, h11, h12, h13, h14⟩ := hc
      simp [h2, h3, h4, h7]

theorem parsePieces_escSlash (rest : List Char) (h : qfree rest = true) :
    parsePieces ('\\' :: '/' :: rest) =
      (parsePieces rest).map (.one (litC '/') :: ·) := by
  rw [parsePieces_cons, if_neg (by decide), if_pos rfl]
  simp only []
  rw [applyQuant_qfree _ _ h]

theorem parsePieces_escList (l rest : List Char) (h : qfree rest = true) :
    parsePieces (escList l ++ rest) =
      (parsePieces rest).map
        (fun ps => l.map (fun c => RxPiece.one (litC c)) ++ ps) := by
  induction l with
  | nil =>
    simp only [escList, List.foldr_nil, List.nil_append, List.map_nil]
    cases parsePieces rest <;> rfl
  | cons c l2 ih =>
    have hq2 : qfree (escList l2 ++ rest) = true := qfree_escList l2 rest h
    rw [escList_cons, List.append_assoc]
    unfold escapeRegexChar
    split_ifs with hc
    · simp only [List.cons_append, List.nil_append]
      rw [parsePieces_cons, if_neg (by decide), if_pos rfl]
      simp only []
      rw [applyQuant_qfree _ _ hq2]
      simp only []
      rw [ih, Option.map_map]
      rfl
    · simp only [List.mem_cons, List.not_mem_nil, or_false, not_or] at hc
      obtain ⟨h1, h2, h3, h4, h5, h6, h7, h8, h9, h10, h11, h12, h13, h14⟩ := hc
      simp only [List.cons_append, List.nil_append]
      rw [parsePieces_cons, if_neg h6, if_neg h14, if_neg h12, if_neg h9,
        if_neg h5, if_neg h1, if_neg (by simp [quantChars, h4, h3, h2])]
      rw [applyQuant_qfree _ _ hq2]
      simp only []
      rw [ih, Option.map_map]
      rfl

theorem parsePieces_wild (rest : List Char) :
    parsePieces ('[' :: '^' :: '/' :: ']' :: '+' :: rest) =
      (parsePieces rest).map
        (.atLeast 1 ⟨true, [.single '/']⟩ :: ·) := by
  rw [parsePieces_cons, if_neg (by decide), if_neg (by decide), if_pos rfl]
  have hcp : parseClassPiece ('^' :: '/' :: ']' :: '+' :: rest) =
      some (.atLeast 1 ⟨true, [.single '/']⟩, rest) := rfl
  rw [hcp]

theorem parsePieces_sku (rest : List Char) :
    parsePieces ('[' :: 'A' :: '-' :: 'Z' :: '0' :: '-' :: '9' :: ']' ::
        '\x7b' :: '4' :: ',' :: '\x7d' :: rest) =
      (parsePieces rest).map
        (.atLeast 4 ⟨false, [.range 'A' 'Z', .range '0' '9']⟩ :: ·) := by
  rw [parsePieces_cons, if_neg (by decide), if_neg (by decide), if_pos rfl]
  have hcp : parseClassPiece ('A' :: '-' :: 'Z' :: '0' :: '-' :: '9' :: ']' ::
      '\x7b' :: '4' :: ',' :: '\x7d' :: rest) =
      some (.atLeast 4 ⟨false, [.range 'A' 'Z', .range '0' '9']⟩, rest) := rfl
  rw [hcp]

/-! ### Matching lemmas -/

theorem litC_test (c : Char) : ccTest (litC c) c = true := by
  simp [ccTest, litC, ccItemTest]

theorem matSeq_litChain (l : List Char) (ps : List RxPiece) (t : List Char) :
    matSeq (l.map (fun c => RxPiece.one (litC c)) ++ ps) (l ++ t) =
      matSeq ps t := by
  induction l with
  | nil => rfl
  | cons c l2 ih =>
    simp only [List.map_cons, List.cons_append, matSeq, List.append_eq]
    rw [litC_test, Bool.true_and, ih]

theorem matSeq_atLeast (n : ℕ) (k : CCls) (w : List Char) (ps : List RxPiece)
    (t : List Char) (hall : ∀ c ∈ w, ccTest k c = true) (hn : n ≤ w.length)
    (hrest : matSeq ps t = true) :
    matSeq (.atLeast n k :: ps) (w ++ t) = true := by
  simp only [matSeq]
  rw [List.any_eq_true]
  refine ⟨w.length, List.mem_range.mpr (by simp; omega), ?_⟩
  simp only [Bool.and_eq_true, decide_eq_true_eq]
  refine ⟨⟨hn, ?_⟩, ?_⟩
  · rw [List.take_left, List.all_eq_true]
    exact hall
  · rw [List.drop_left]
    exact hrest

theorem upperDigit_ccTest (c : Char) (h : isUpperDigit c = true) :
    ccTest ⟨false, [.range 'A' 'Z', .range '0' '9']⟩ c = true := by
  simp only [isUpperDigit, isUpperAlpha, isDigitC, Bool.or_eq_true,
    Bool.and_eq_true] at h
  simp only [ccTest, ccItemTest, List.any_cons, List.any_nil,
    Bool.or_false, bne_iff_ne, ne_eq, Bool.or_eq_true, Bool.and_eq_true]
  simp only [Bool.not_eq_false]
  rcases h with ⟨h1, h2⟩ | ⟨h1, h2⟩ <;> simp [h1, h2]

theorem noSlash_ccTest (c : Char) (h : c ≠ '/') :
    ccTest ⟨true, [.single '/']⟩ c = true := by
  simp [ccTest, ccItemTest, h]

/-- Parse-and-match for one `\/part` chunk of a cluster pattern,
given parse-and-match facts for the remainder. -/
theorem part_step (p s : String) (hfit : PartFits p s)
    (tailPat tailIn : List Char) (hq : qfree tailPat = true)
    (ps2 : List RxPiece) (hparse : parsePieces tailPat = some ps2)
    (hmat : ∀ t, matSeq ps2 (tailIn ++ t) = true) :
    ∃ ps, parsePieces ('\\' :: '/' :: (p.data ++ tailPat)) = some ps ∧
      ∀ t, matSeq ps (('/' :: (s.data ++ tailIn)) ++ t) = true := by
  rcases hfit with ⟨hp, hne, hnosl⟩ | ⟨hp, hlen, hud⟩ | hp
  · subst hp
    rw [show ("[^/]+" : String).data = ['[', '^', '/', ']', '+'] from rfl]
    rw [show (['[', '^', '/', ']', '+'] ++ tailPat) =
      '[' :: '^' :: '/' :: ']' :: '+' :: tailPat from rfl]
    rw [parsePieces_escSlash _ (by rfl), parsePieces_wild, hparse]
    refine ⟨_, rfl, ?_⟩
    intro t
    simp only [List.cons_append, matSeq]
    rw [litC_test, Bool.true_and, List.append_assoc]
    exact matSeq_atLeast 1 _ s.data ps2 (tailIn ++ t)
      (fun c hc => noSlash_ccTest c (hnosl c hc))
      (by cases hsd : s.data with
          | nil => exact absurd hsd hne
          | cons a l => simp)
      (hmat t)
  · subst hp
    rw [show ("[A-Z0-9]\x7b4,\x7d" : String).data =
      ['[', 'A', '-', 'Z', '0', '-', '9', ']', '\x7b', '4', ',', '\x7d'] from rfl]
    rw [show (['[', 'A', '-', 'Z', '0', '-', '9', ']', '\x7b', '4', ',', '\x7d'] ++
      tailPat) = '[' :: 'A' :: '-' :: 'Z' :: '0' :: '-' :: '9' :: ']' ::
      '\x7b' :: '4' :: ',' :: '\x7d' :: tailPat from rfl]
    rw [parsePieces_escSlash _ (by rfl), parsePieces_sku, hparse]
    refine ⟨_, rfl, ?_⟩
    intro t
    simp only [List.cons_append, matSeq]
    rw [litC_test, Bool.true_and, List.append_assoc]
    exact matSeq_atLeast 4 _ s.data ps2 (tailIn ++ t)
      (fun c hc => upperDigit_ccTest c (hud c hc)) hlen (hmat t)
  · subst hp
    rw [escapeRegex_data]
    rw [parsePieces_escSlash _ (qfree_escList _ _ hq),
      parsePieces_escList _ _ hq, hparse]
    refine ⟨_, rfl, ?_⟩
    intro t
    simp only [List.cons_append, matSeq]
    rw [litC_test, Bool.true_and, List.append_assoc, matSeq_litChain]
    exact hmat t

/-- Parse-and-match for a whole cluster pattern against a member path's
segments: `\/p0\/p1…` compiles, and matches a prefix of
`/s0/s1…` (any suffix may follow). -/
theorem parts_chain : ∀ (parts segs : List String),
    parts.length = segs.length →
    (∀ i, i < parts.length → PartFits (parts.getD i "") (segs.getD i "")) →
    ∃ ps, parsePieces ("\\/" ++ joinSep "\\/" parts).data = some ps ∧
      ∀ t, matSeq ps (("/" ++ joinSep "/" segs).data ++ t) = true := by
  intro parts
  induction parts with
  | nil =>
    intro segs hlen hfit
    have hs : segs = [] := List.length_eq_zero.mp (by rw [← hlen]; rfl)
    subst hs
    refine ⟨[.one (litC '/')], by decide, ?_⟩
    intro t
    show matSeq [.one (litC '/')] ('/' :: t) = true
    simp [matSeq, litC_test]
  | cons p parts2 ih =>
    intro segs hlen hfit
    cases segs with
    | nil => simp at hlen
    | cons s segs2 =>
      cases parts2 with
      | nil =>
        have hs2 : segs2 = [] := by
          simpa using (by simpa using hlen : 1 = segs2.length + 1).symm
        subst hs2
        obtain ⟨ps, hp1, hp2⟩ := part_step p s (hfit 0 (by simp)) [] []
          rfl [] rfl (fun t => rfl)
        refine ⟨ps, ?_, ?_⟩
        · have hd : ("\\/" ++ joinSep "\\/" [p]).data =
              '\\' :: '/' :: (p.data ++ []) := by
            simp [joinSep, String.data_append]
          rw [hd]
          exact hp1
        · intro t
          have hd : ("/" ++ joinSep "/" [s]).data = '/' :: (s.data ++ []) := by
            simp [joinSep, String.data_append]
          rw [hd]
          exact hp2 t
      | cons q parts3 =>
        cases segs2 with
        | nil => simp at hlen
        | cons s2 segs3 =>
          have hlen2 : (q :: parts3).length = (s2 :: segs3).length := by
            simpa using hlen
          have hfit2 : ∀ i, i < (q :: parts3).length →
              PartFits ((q :: parts3).getD i "") ((s2 :: segs3).getD i "") := by
            intro i hi
            have h := hfit (i + 1) (by simpa using hi)
            simpa using h
          obtain ⟨ps2, hp1, hp2⟩ := ih (s2 :: segs3) hlen2 hfit2
          have hqf : qfree (("\\/" ++ joinSep "\\/" (q :: parts3)).data) = true := by
            rw [show ("\\/" ++ joinSep "\\/" (q :: parts3)).data =
              '\\' :: '/' :: (joinSep "\\/" (q :: parts3)).data from by
                simp [String.data_append]]
            rfl
          obtain ⟨ps, hq1, hq2⟩ := part_step p s (hfit 0 (by simp))
            (("\\/" ++ joinSep "\\/" (q :: parts3)).data)
            (("/" ++ joinSep "/" (s2 :: segs3)).data) hqf ps2 hp1 hp2
          refine ⟨ps, ?_, ?_⟩
          · have hd : ("\\/" ++ joinSep "\\/" (p :: q :: parts3)).data =
                '\\' :: '/' :: (p.data ++ ("\\/" ++ joinSep "\\/" (q :: parts3)).data) := by
              show ("\\/" ++ (p ++ "\\/" ++ joinSep "\\/" (q :: parts3))).data = _
              simp [String.data_append, List.append_assoc]
            rw [hd]
            exact hq1
          · intro t
            have hd2 : ("/" ++ joinSep "/" (s :: s2 :: segs3)).data =
                '/' :: (s.data ++ ("/" ++ joinSep "/" (s2 :: segs3)).data) := by
              show ("/" ++ (s ++ "/" ++ joinSep "/" (s2 :: segs3))).data = _
              simp [String.data_append, List.append_assoc]
            rw [hd2]
            exact hq2 t

/-! ### Decimal representation lemmas (for the group signature) -/

theorem toDigitsCore_append (b : ℕ) :
    ∀ (f n : ℕ) (ds : List Char),
      Nat.toDigitsCore b f n ds = Nat.toDigitsCore b f n [] ++ ds := by
  intro f
  induction f with
  | zero => intro n ds; rfl
  | succ f ih =>
    intro n ds
    unfold Nat.toDigitsCore
    simp only []
    split_ifs with h
    · rfl
    · rw [ih (n / b) [Nat.digitChar (n % b)], ih (n / b) (Nat.digitChar (n % b) :: ds),
        List.append_assoc]
      rfl

theorem decVal_append_digit (xs : List Char) (d : Char) :
    decVal (xs ++ [d]) = decVal xs * 10 + (d.toNat - 48) := by
  unfold decVal
  rw [List.foldl_append]
  rfl

theorem digitChar_spec (k : ℕ) (hk : k < 10) :
    (Nat.digitChar k).isDigit = true ∧
      (Nat.digitChar k).toNat - 48 = k := by
  interval_cases k <;> exact ⟨by decide, by decide⟩

theorem toDigitsCore_spec :
    ∀ (f n : ℕ), n < f →
      (∀ c ∈ Nat.toDigitsCore 10 f n [], c.isDigit = true) ∧
        decVal (Nat.toDigitsCore 10 f n []) = n := by
  intro f
  induction f with
  | zero => intro n hn; omega
  | succ f ih =>
    intro n hn
    unfold Nat.toDigitsCore
    simp only []
    split_ifs with h
    · have h10 : n % 10 = n := by omega
      constructor
      · intro c hc
        simp only [List.mem_singleton] at hc
        subst hc
        exact (digitChar_spec _ (by omega)).1
      · show decVal ([] ++ [Nat.digitChar (n % 10)]) = n
        rw [decVal_append_digit]
        have hd2 := (digitChar_spec (n % 10) (by omega)).2
        rw [h10] at hd2 ⊢
        simp only [decVal, List.foldl_nil, Nat.zero_mul, Nat.zero_add]
        exact hd2
    · have hdiv : n / 10 < f := by omega
      rw [toDigitsCore_append 10 f (n / 10) [Nat.digitChar (n % 10)]]
      obtain ⟨hd, hv⟩ := ih (n / 10) hdiv
      constructor
      · intro c hc
        rcases List.mem_append.mp hc with h1 | h2
        · exact hd c h1
        · simp only [List.mem_singleton] at h2
          subst h2
          exact (digitChar_spec _ (by omega)).1
      · rw [decVal_append_digit, hv, (digitChar_spec (n % 10) (by omega)).2]
        omega

theorem repr_spec (n : ℕ) :
    (∀ c ∈ (Nat.repr n).data, c.isDigit = true) ∧
      decVal (Nat.repr n).data = n := by
  have h := toDigitsCore_spec (n + 1) n (by omega)
  exact h

theorem takeWhile_append_stop (p : Char → Bool) (xs : List Char) (y : Char)
    (ys : List Char) (hxs : ∀ c ∈ xs, p c = true) (hy : p y = false) :
    (xs ++ y :: ys).takeWhile p = xs := by
  induction xs with
  | nil => simp [List.takeWhile_cons, hy]
  | cons a l ih =>
    simp only [List.cons_append, List.takeWhile_cons, hxs a (by simp), if_true]
    rw [ih (fun c hc => hxs c (by simp [hc]))]

theorem takeWhile_of_all (p : Char → Bool) (xs : List Char)
    (hxs : ∀ c ∈ xs, p c = true) : xs.takeWhile p = xs := by
  induction xs with
  | nil => rfl
  | cons a l ih =>
    simp only [List.takeWhile_cons, hxs a (by simp), if_true]
    rw [ih (fun c hc => hxs c (by simp [hc]))]

/-- Reading the depth back out of a group signature recovers the
segment count. -/
theorem sig_depth (segs : List String) :
    jsParseIntNat (firstField (mkSig segs)) = segs.length := by
  unfold mkSig firstField jsParseIntNat
  obtain ⟨hdig, hval⟩ := repr_spec segs.length
  have hdata : (Nat.repr segs.length ++ ":" ++ segs.headD "").data =
      (Nat.repr segs.length).data ++ ':' :: (segs.headD "").data := by
    simp [String.data_append]
  rw [hdata]
  rw [takeWhile_append_stop _ _ _ _
    (fun c hc => by
      have := hdig c hc
      simp only [ne_eq, decide_eq_true_eq]
      intro hcolon
      rw [hcolon] at this
      exact absurd this (by decide))
    (by simp)]
  show decVal (((Nat.repr segs.length).data).takeWhile Char.isDigit) = _
  rw [takeWhile_of_all _ _ hdig]
  exact hval

/-! ### Path segment lemmas -/

theorem splitSlash_no_slash : ∀ (l : List Char), ∀ g ∈ splitSlash l, ∀ c ∈ g, c ≠ '/' := by
  intro l
  induction l using splitSlash.induct with
  | case1 =>
    intro g hg c hc
    simp only [splitSlash, List.mem_singleton] at hg
    subst hg
    cases hc
  | case2 rest ih =>
    intro g hg c hc
    simp only [splitSlash, List.mem_cons] at hg
    rcases hg with hg | hg
    · subst hg; cases hc
    · exact ih g hg c hc
  | case3 a rest ha hss ih =>
    intro g hg c hc
    rw [splitSlash.eq_def] at hg
    split at hg
    · rename_i heq; exact absurd heq (by simp)
    · rename_i heq
      injection heq with h1 h2
      exact absurd h1 ha
    · rename_i hne heq
      injection heq with h1 h2
      subst h1
      subst h2
      rw [hss] at hg
      simp only [List.mem_singleton] at hg
      subst hg
      simp only [List.mem_singleton] at hc
      subst hc
      exact fun h => ha h
  | case4 a rest ha g0 gs hss ih =>
    intro g hg c hc
    rw [splitSlash.eq_def] at hg
    split at hg
    · rename_i heq; exact absurd heq (by simp)
    · rename_i heq
      injection heq with h1 h2
      exact absurd h1 ha
    · rename_i hne heq
      injection heq with h1 h2
      subst h1
      subst h2
      rw [hss] at hg
      simp only [List.mem_cons] at hg
      rcases hg with hg | hg
      · subst hg
        simp only [List.mem_cons] at hc
        rcases hc with hc | hc
        · subst hc; exact fun h => ha h
        · exact ih g0 (by rw [hss]; simp) c hc
      · exact ih g (by rw [hss]; simp [hg]) c hc

theorem pathSegs_mem_ne_nil (p : String) : ∀ s ∈ pathSegs p, s ≠ "" := by
  intro s hs
  exact (List.mem_filter.mp hs).2 |> (by simpa using ·)

theorem pathSegs_mem_no_slash (p : String) :
    ∀ s ∈ pathSegs p, ∀ c ∈ s.data, c ≠ '/' := by
  intro s hs c hc
  have h1 := (List.mem_filter.mp hs).1
  rcases List.mem_map.mp h1 with ⟨g, hg, heq⟩
  subst heq
  exact splitSlash_no_slash p.data g hg c hc

/-! ### Grouping lemmas -/

theorem addToGroup_spec (groups : List (String × List String)) (sig path : String) :
    ∀ g ∈ addToGroup groups sig path, ∀ m ∈ g.2,
      (∃ g0 ∈ groups, g0.1 = g.1 ∧ m ∈ g0.2) ∨ (m = path ∧ g.1 = sig) := by
  intro g hg m hm
  unfold addToGroup at hg
  split_ifs at hg with hfind
  · rcases List.mem_map.mp hg with ⟨g0, hg0, heq⟩
    by_cases hk : (g0.1 == sig) = true
    · rw [if_pos hk] at heq
      have hk2 : g0.1 = sig := by simpa using hk
      rw [← heq] at hm
      simp only [] at hm
      rcases List.mem_append.mp hm with h1 | h2
      · exact Or.inl ⟨g0, hg0, by rw [← heq], h1⟩
      · simp only [List.mem_singleton] at h2
        refine Or.inr ⟨h2, ?_⟩
        rw [← heq]
        exact hk2
    · rw [if_neg hk] at heq
      subst heq
      exact Or.inl ⟨g0, hg0, rfl, hm⟩
  · rcases List.mem_append.mp hg with h1 | h2
    · exact Or.inl ⟨g, h1, rfl, hm⟩
    · simp only [List.mem_singleton] at h2
      subst h2
      simp only [List.mem_singleton] at hm
      exact Or.inr ⟨hm, rfl⟩

theorem groupPaths_fold_spec : ∀ (l : List String)
    (acc : List (String × List String)),
    ∀ g ∈ l.foldl
      (fun gs path =>
        let segments := pathSegs path
        if segments.length = 0 then gs
        else addToGroup gs (mkSig segments) path) acc,
    ∀ m ∈ g.2,
      (∃ g0 ∈ acc, g0.1 = g.1 ∧ m ∈ g0.2) ∨
        (m ∈ l ∧ pathSegs m ≠ [] ∧ mkSig (pathSegs m) = g.1) := by
  intro l
  induction l with
  | nil =>
    intro acc g hg m hm
    exact Or.inl ⟨g, hg, rfl, hm⟩
  | cons p l2 ih =>
    intro acc g hg m hm
    rw [List.foldl_cons] at hg
    rcases ih _ g hg m hm with ⟨g0, hg0, hkey, hmem⟩ | ⟨hmem, hsegs, hsig⟩
    · simp only [] at hg0
      split_ifs at hg0 with hlen0
      · exact Or.inl ⟨g0, hg0, hkey, hmem⟩
      · rcases addToGroup_spec acc (mkSig (pathSegs p)) p g0 hg0 m hmem with
          ⟨g1, hg1, hkey1, hmem1⟩ | ⟨hmp, hkeyp⟩
        · exact Or.inl ⟨g1, hg1, by rw [hkey1, hkey], hmem1⟩
        · subst hmp
          refine Or.inr ⟨by simp, ?_, hkeyp.symm.trans hkey⟩
          intro hnil
          exact hlen0 (by rw [hnil]; rfl)
    · exact Or.inr ⟨by simp [hmem], hsegs, hsig⟩

theorem groupPaths_spec (paths : List String) :
    ∀ g ∈ groupPaths paths, ∀ m ∈ g.2,
      m ∈ paths ∧ pathSegs m ≠ [] ∧ mkSig (pathSegs m) = g.1 := by
  intro g hg m hm
  rcases groupPaths_fold_spec paths [] g hg m hm with ⟨g0, hg0, _⟩ | h
  · cases hg0
  · exact h

theorem mainClusters_spec (paths : List String) :
    ∀ c ∈ mainClusters paths, ∃ g ∈ groupPaths paths, 2 ≤ g.2.length ∧
      c = ⟨clusterPattern (jsParseIntNat (firstField g.1)) g.2, g.2.take 5⟩ := by
  suffices h : ∀ (l : List (String × List String))
      (acc : List PathCluster),
      ∀ c ∈ l.foldl
        (fun acc g =>
          if g.2.length < 2 then acc
          else acc ++ [⟨clusterPattern (jsParseIntNat (firstField g.1)) g.2,
            g.2.take 5⟩]) acc,
      c ∈ acc ∨ ∃ g ∈ l, 2 ≤ g.2.length ∧
        c = ⟨clusterPattern (jsParseIntNat (firstField g.1)) g.2, g.2.take 5⟩ by
    intro c hc
    rcases h (groupPaths paths) [] c hc with habs | ⟨g, hg, hlen, heq⟩
    · cases habs
    · exact ⟨g, hg, hlen, heq⟩
  intro l
  induction l with
  | nil => intro acc c hc; exact Or.inl hc
  | cons g0 l2 ih =>
    intro acc c hc
    rw [List.foldl_cons] at hc
    rcases ih _ c hc with hacc | ⟨g, hg, hlen, heq⟩
    · split_ifs at hacc with hshort
      · exact Or.inl hacc
      · rcases List.mem_append.mp hacc with h1 | h2
        · exact Or.inl h1
        · simp only [List.mem_singleton] at h2
          exact Or.inr ⟨g0, by simp, by omega, h2⟩
    · exact Or.inr ⟨g, by simp [hg], hlen, heq⟩

theorem dedup_pair_eq {α : Type} [DecidableEq α] (l : List α)
    (h : l.dedup.length = 1) : ∀ a ∈ l, ∀ b ∈ l, a = b := by
  obtain ⟨x, hx⟩ := List.length_eq_one.mp h
  intro a ha b hb
  have ha2 : a ∈ l.dedup := List.mem_dedup.mpr ha
  have hb2 : b ∈ l.dedup := List.mem_dedup.mpr hb
  rw [hx] at ha2 hb2
  simp only [List.mem_singleton] at ha2 hb2
  rw [ha2, hb2]

theorem partAt_fits (g2 : List String) (ex : String) (hex : ex ∈ g2)
    (i : ℕ) (hi : i < (pathSegs ex).length) :
    PartFits (partAt g2 i) ((pathSegs ex).getD i "") := by
  have hgetd : (pathSegs ex).getD i "" = (pathSegs ex).get ⟨i, hi⟩ := by
    rw [List.getD_eq_getElem _ _ hi]
    rfl
  have hmemseg : (pathSegs ex).getD i "" ∈ pathSegs ex := by
    rw [hgetd]
    exact List.get_mem _ _ _
  have hne : (pathSegs ex).getD i "" ≠ "" := pathSegs_mem_ne_nil ex _ hmemseg
  have hnoslash := pathSegs_mem_no_slash ex _ hmemseg
  unfold partAt
  set segI := (pathSegs ex).getD i "" with hsegI
  set segValues :=
    (g2.map (fun p => (pathSegs p).getD i "")).filter (fun s => s ≠ "") with hsv
  have hmemSV : segI ∈ segValues := by
    rw [hsv]
    refine List.mem_filter.mpr ⟨List.mem_map.mpr ⟨ex, hex, rfl⟩, by simpa using hne⟩
  show PartFits
    (if segValues.dedup.length = 1 then escapeRegex (segValues.headD "")
     else if segValues.all skuSegTest then "[A-Z0-9]\x7b4,\x7d" else "[^/]+") segI
  split_ifs with h1 h2
  · right; right
    have hhead : segValues.headD "" ∈ segValues := by
      cases hsv2 : segValues with
      | nil => rw [hsv2] at hmemSV; cases hmemSV
      | cons a as => exact List.mem_cons_self a as
    rw [dedup_pair_eq segValues h1 _ hhead _ hmemSV]
  · right; left
    have hsku := List.all_eq_true.mp h2 _ hmemSV
    unfold skuSegTest at hsku
    rw [Bool.and_eq_true, decide_eq_true_eq] at hsku
    refine ⟨rfl, hsku.1, ?_⟩
    exact fun c hc => List.all_eq_true.mp hsku.2 c hc
  · left
    refine ⟨rfl, ?_, hnoslash⟩
    intro hnil
    exact hne (String.ext hnil)

theorem range_map_getD (g2 : List String) (depth i : ℕ) (hi : i < depth) :
    ((List.range depth).map (partAt g2)).getD i "" = partAt g2 i := by
  rw [List.getD_eq_getElem _ _ (by simpa using hi)]
  simp [List.getElem_map, List.getElem_range]

/-- Claim C4 amended: every pattern produced by the main (≥ 2 member)
clustering branch matches each of its own examples, provided each input
path is in canonical form (leading slash, segments joined by single
slashes — the form `new URL(...).pathname` yields).  The synthesized
home, cart and search patterns do NOT satisfy the round trip: their
examples are full URLs while the patterns are anchored path patterns
(see the counterexample), and the singleton-fallback branch can emit
empty example lists. -/
theorem pattern_roundtrip_amended (paths : List String)
    (hcanon : ∀ p ∈ paths, canonicalPath p) :
    ∀ c ∈ mainClusters paths, ∀ ex ∈ c.examples,
      patternMatches c.pattern ex = true := by
  intro c hc ex hex
  obtain ⟨g, hg, hglen, hceq⟩ := mainClusters_spec paths c hc
  subst hceq
  simp only [] at hex
  have hex2 : ex ∈ g.2 := List.mem_of_mem_take hex
  obtain ⟨hexp, hexsegs, hexsig⟩ := groupPaths_spec paths g hg ex hex2
  have hdepth : jsParseIntNat (firstField g.1) = (pathSegs ex).length := by
    rw [← hexsig, sig_depth]
  set parts :=
    (List.range (jsParseIntNat (firstField g.1))).map (partAt g.2) with hpartsdef
  have hlen : parts.length = (pathSegs ex).length := by
    rw [hpartsdef]
    simp [hdepth]
  have hfit : ∀ i, i < parts.length →
      PartFits (parts.getD i "") ((pathSegs ex).getD i "") := by
    intro i hi
    rw [hlen] at hi
    have hi2 : i < jsParseIntNat (firstField g.1) := by rw [hdepth]; exact hi
    rw [hpartsdef, range_map_getD g.2 _ i hi2]
    exact partAt_fits g.2 ex hex2 i hi
  obtain ⟨ps, hparse, hmat⟩ := parts_chain parts (pathSegs ex) hlen hfit
  have hdata2 : ("\\/" ++ joinSep "\\/" parts).data =
      '\\' :: '/' :: (joinSep "\\/" parts).data := by
    rw [String.data_append]
    rfl
  have hcomp : compileRx (clusterPattern (jsParseIntNat (firstField g.1)) g.2) =
      some ⟨false, ps⟩ := by
    show (match ("\\/" ++ joinSep "\\/" parts).data with
      | '^' :: rest => (parsePieces rest).map (fun ps => (⟨true, ps⟩ : Rx))
      | l => (parsePieces l).map (fun ps => (⟨false, ps⟩ : Rx))) = some ⟨false, ps⟩
    rw [hdata2]
    show (parsePieces ('\\' :: '/' :: (joinSep "\\/" parts).data)).map
      (fun ps => (⟨false, ps⟩ : Rx)) = some ⟨false, ps⟩
    rw [hdata2] at hparse
    rw [hparse]
    rfl
  show patternMatches (clusterPattern (jsParseIntNat (firstField g.1)) g.2) ex = true
  unfold patternMatches
  rw [hcomp]
  show (ex.data.tails.any fun t => matSeq ps t) = true
  refine List.any_eq_true.mpr ⟨ex.data, (List.mem_tails _ _).mpr (List.suffix_refl _), ?_⟩
  have hcanonex : ex = "/" ++ joinSep "/" (pathSegs ex) := hcanon ex hexp
  rw [show ex.data = ("/" ++ joinSep "/" (pathSegs ex)).data ++ [] from by
    rw [List.append_nil]
    exact congrArg String.data hcanonex]
  exact hmat []

theorem pattern_roundtrip_amended_witness :
    (∀ p ∈ ["/mattress/a/SKU1", "/mattress/b/SKU2", "/mattress/c/SKU3",
      "/bed/d/SKU4"], canonicalPath p) ∧
    ∀ c ∈ mainClusters ["/mattress/a/SKU1", "/mattress/b/SKU2",
      "/mattress/c/SKU3", "/bed/d/SKU4"], ∀ ex ∈ c.examples,
      patternMatches c.pattern ex = true :=
  ⟨by unfold canonicalPath; decide, pattern_roundtrip_amended _
    (by unfold canonicalPath; decide)⟩

/-! ### Non-empty examples (fallback branch) -/

theorem escList_plain (l : List Char) (h : ∀ c ∈ l, escapeRegexChar c = [c]) :
    escList l = l := by
  induction l with
  | nil => rfl
  | cons c l2 ih =>
    rw [escList_cons, h c (by simp), ih (fun d hd => h d (by simp [hd]))]
    rfl

theorem plain_ne_backslash (c : Char) (h : escapeRegexChar c = [c]) :
    c ≠ '\\' := by
  intro hc
  subst hc
  exact absurd h (by decide)

theorem joinSep_fallback_head (L : List String) :
    ∃ T, (joinSep "" ("\\/[^/]+" :: L)).data = '\\' :: T := by
  cases L with
  | nil => exact ⟨"/[^/]+".data, rfl⟩
  | cons y ys =>
    refine ⟨"/[^/]+".data ++ (joinSep "" (y :: ys)).data, ?_⟩
    show (("\\/[^/]+" : String) ++ "" ++ joinSep "" (y :: ys)).data = _
    rw [String.data_append, String.data_append]
    rfl

theorem fallbackPattern_data (segs : List String) (h2 : 2 ≤ segs.length) :
    ∃ T, (fallbackPattern segs).data =
      '\\' :: '/' :: (escList (segs.headD "").data ++ '\\' :: T) := by
  match segs, h2 with
  | s0 :: s1 :: rest, _ =>
    obtain ⟨T, hT⟩ := joinSep_fallback_head (rest.map (fun _ => "\\/[^/]+"))
    refine ⟨T, ?_⟩
    show (("\\/" : String) ++ escapeRegex s0 ++
      joinSep "" (((s0 :: s1 :: rest).drop 1).map (fun _ => "\\/[^/]+"))).data = _
    rw [String.data_append, String.data_append, escapeRegex_data]
    show ('\\' :: '/' :: escList s0.data) ++ _ = _
    rw [List.cons_append, List.cons_append]
    simp only [List.drop_succ_cons, List.drop_zero, List.map_cons]
    rw [hT]
    rfl

theorem extractFirstSeg_fallback (segs : List String) (h2 : 2 ≤ segs.length)
    (hne : segs.headD "" ≠ "")
    (hplain : ∀ c ∈ (segs.headD "").data, escapeRegexChar c = [c]) :
    extractFirstSeg (fallbackPattern segs).data = some (segs.headD "") := by
  obtain ⟨T, hT⟩ := fallbackPattern_data segs h2
  rw [hT, escList_plain _ hplain]
  cases hs0 : (segs.headD "").data with
  | nil => exact absurd (String.ext hs0) hne
  | cons c cs =>
    have hc : c ≠ '\\' :=
      plain_ne_backslash c (hplain c (by rw [hs0]; simp))
    show (if c ≠ '\\' then
        some (⟨(c :: (cs ++ '\\' :: T)).takeWhile (fun d => d ≠ '\\')⟩ : String)
      else extractFirstSeg ('/' :: c :: (cs ++ '\\' :: T))) = _
    rw [if_pos hc]
    have htw : (c :: (cs ++ '\\' :: T)).takeWhile (fun d => d ≠ '\\') = c :: cs := by
      rw [show c :: (cs ++ '\\' :: T) = (c :: cs) ++ '\\' :: T from rfl]
      refine takeWhile_append_stop _ _ _ _ ?_ (by simp)
      intro d hd
      have : d ≠ '\\' :=
        plain_ne_backslash d (hplain d (by rw [hs0]; exact hd))
      simpa using this
    rw [htw, ← hs0]

theorem addGeneric_sub (pats : List String) (p q : String)
    (h : q ∈ addGeneric pats p) : q ∈ pats ∨ q = p := by
  unfold addGeneric at h
  split_ifs at h with hc
  · exact Or.inl h
  · rcases List.mem_append.mp h with h1 | h2
    · exact Or.inl h1
    · simp only [List.mem_singleton] at h2
      exact Or.inr h2

theorem genericPatterns_spec (paths : List String) :
    ∀ pat ∈ genericPatterns paths, ∃ p ∈ paths,
      2 ≤ (pathSegs p).length ∧ pat = fallbackPattern (pathSegs p) := by
  suffices h : ∀ (l : List String) (acc : List String),
      ∀ pat ∈ l.foldl (fun acc path =>
        let segments := pathSegs path
        if 2 ≤ segments.length then addGeneric acc (fallbackPattern segments)
        else acc) acc,
      pat ∈ acc ∨ ∃ p ∈ l, 2 ≤ (pathSegs p).length ∧
        pat = fallbackPattern (pathSegs p) by
    intro pat hpat
    rcases h paths [] pat hpat with h0 | h1
    · cases h0
    · exact h1
  intro l
  induction l with
  | nil => intro acc pat hp; exact Or.inl hp
  | cons p l2 ih =>
    intro acc pat hp
    rw [List.foldl_cons] at hp
    rcases ih _ pat hp with hacc | ⟨q, hq, hlen, heq⟩
    · simp only [] at hacc
      split_ifs at hacc with hlen2
      · rcases addGeneric_sub _ _ _ hacc with h1 | h2
        · exact Or.inl h1
        · exact Or.inr ⟨p, by simp, hlen2, h2⟩
      · exact Or.inl hacc
    · exact Or.inr ⟨q, by simp [hq], hlen, heq⟩

theorem take_ne_nil_of_ne {α : Type} (n : ℕ) (l : List α) (h : l ≠ [])
    (hn : n ≠ 0) : l.take n ≠ [] := by
  cases l with
  | nil => exact absurd rfl h
  | cons a as =>
    cases n with
    | zero => exact absurd rfl hn
    | succ m => simp [List.take]

theorem fallbackClusters_nonempty (paths : List String)
    (hplain : ∀ p ∈ paths, plainFirstSeg p) :
    ∀ pp ∈ fallbackClusters paths, pp.examples ≠ [] := by
  intro pp hpp
  unfold fallbackClusters at hpp
  rcases List.mem_map.mp hpp with ⟨pat, hpat, heq⟩
  obtain ⟨p, hp, hlen, hpateq⟩ := genericPatterns_spec paths pat hpat
  subst hpateq
  have hsegne : pathSegs p ≠ [] := by
    intro h0
    rw [h0] at hlen
    exact absurd hlen (by decide)
  have hheadmem : (pathSegs p).headD "" ∈ pathSegs p := by
    cases hps : pathSegs p with
    | nil => exact absurd hps hsegne
    | cons a as => exact List.mem_cons_self a as
  have hne : (pathSegs p).headD "" ≠ "" := pathSegs_mem_ne_nil p _ hheadmem
  have hext := extractFirstSeg_fallback (pathSegs p) hlen hne (hplain p hp)
  rw [← heq]
  show List.take 3 (List.filter
    (fun q => (pathSegs q).head? == extractFirstSeg (fallbackPattern (pathSegs p)).data)
    paths) ≠ []
  refine take_ne_nil_of_ne 3 _
    (List.ne_nil_of_mem (List.mem_filter.mpr ⟨hp, ?_⟩)) (by decide)
  rw [hext]
  cases hps : pathSegs p with
  | nil => exact absurd hps hsegne
  | cons a as => simp

theorem mainClusters_nonempty (paths : List String) :
    ∀ pp ∈ mainClusters paths, pp.examples ≠ [] := by
  intro pp hpp
  obtain ⟨g, hg, hglen, heq⟩ := mainClusters_spec paths pp hpp
  subst heq
  show g.2.take 5 ≠ []
  refine take_ne_nil_of_ne 5 _ ?_ (by decide)
  intro h0
  rw [h0] at hglen
  exact absurd hglen (by decide)

theorem clusterPaths_nonempty (paths : List String)
    (hplain : ∀ p ∈ paths, plainFirstSeg p) :
    ∀ pp ∈ clusterPaths paths, pp.examples ≠ [] := by
  intro pp hpp
  unfold clusterPaths at hpp
  simp only [] at hpp
  split_ifs at hpp with hcond
  · exact fallbackClusters_nonempty paths hplain pp hpp
  · exact mainClusters_nonempty paths pp hpp

/-- Claim C9 amended: every `ValidatedPattern` emitted by
`deriveUrlPatterns` has a non-empty examples list, provided the first
path segment of every product URL and category URL that parses contains
no character `escapeRegex` escapes.  Without that proviso the
singleton-fallback branch of `clusterPaths` can emit a pattern with an
empty examples list: it reads the first segment back out of the escaped
pattern string, and the read-back stops at the first escaping backslash,
so no path survives the example filter (see the counterexample). -/
theorem nonempty_examples_amended (products : List ProductUrl)
    (categories : List CategoryUrl) (origin : String)
    (hp : ∀ pr ∈ products, ∀ u : UrlParts, parseUrl pr.url = some u →
      plainFirstSeg u.pathname)
    (hcat : ∀ cu ∈ categories, ∀ u : UrlParts, parseUrl cu.url = some u →
      plainFirstSeg u.pathname) :
    ∀ vp ∈ deriveUrlPatterns products categories origin, vp.examples ≠ [] := by
  have hplainP : ∀ p ∈ products.filterMap
      (fun pr => (parseUrl pr.url).map (fun u => u.pathname)),
      plainFirstSeg p := by
    intro p hpmem
    rcases List.mem_filterMap.mp hpmem with ⟨pr, hpr, hsome⟩
    obtain ⟨u, hu, hup⟩ := Option.map_eq_some'.mp hsome
    exact hup ▸ hp pr hpr u hu
  have hplainC : ∀ p ∈ categories.filterMap
      (fun cu => (parseUrl cu.url).map (fun u => u.pathname)),
      plainFirstSeg p := by
    intro p hpmem
    rcases List.mem_filterMap.mp hpmem with ⟨cu, hcu, hsome⟩
    obtain ⟨u, hu, hup⟩ := Option.map_eq_some'.mp hsome
    exact hup ▸ hcat cu hcu u hu
  intro vp hvp
  unfold deriveUrlPatterns at hvp
  simp only [List.mem_append, List.mem_cons, List.mem_singleton,
    List.not_mem_nil, or_false] at hvp
  rcases hvp with ((h | h) | h) | h | h
  · subst h; simp
  · split_ifs at h with hplen
    · rcases List.mem_map.mp h with ⟨pp, hppmem, heq⟩
      subst heq
      show List.take 3 pp.examples ≠ []
      exact take_ne_nil_of_ne 3 _
        (clusterPaths_nonempty _ hplainP pp hppmem) (by decide)
    · exact absurd h (List.not_mem_nil vp)
  · split_ifs at h with hclen h3
    · rcases List.mem_append.mp h with h1 | h2
      · simp only [List.mem_singleton] at h1
        subst h1
        show List.take 5 _ ≠ []
        refine take_ne_nil_of_ne 5 _ ?_ (by decide)
        intro h0
        rw [h0] at h3
        exact absurd h3 (by decide)
      · rcases List.mem_map.mp h2 with ⟨pp, hppmem, heq⟩
        subst heq
        show List.take 3 pp.examples ≠ []
        refine take_ne_nil_of_ne 3 _
          (clusterPaths_nonempty _ ?_ pp hppmem) (by decide)
        intro q hq
        exact hplainC q (List.mem_of_mem_filter hq)
    · rw [List.nil_append] at h
      rcases List.mem_map.mp h with ⟨pp, hppmem, heq⟩
      subst heq
      show List.take 3 pp.examples ≠ []
      refine take_ne_nil_of_ne 3 _
        (clusterPaths_nonempty _ ?_ pp hppmem) (by decide)
      intro q hq
      exact hplainC q (List.mem_of_mem_filter hq)
    · exact absurd h (List.not_mem_nil vp)
  · subst h; simp
  · subst h; simp

theorem nonempty_examples_amended_witness :
    (∀ pr ∈ ([⟨"Widget", "https://a.com/shop/x", "c"⟩] : List ProductUrl),
      ∀ u : UrlParts, parseUrl pr.url = some u → plainFirstSeg u.pathname) ∧
    ∀ vp ∈ deriveUrlPatterns [⟨"Widget", "https://a.com/shop/x", "c"⟩] []
      "https://a.com", vp.examples ≠ [] := by
  have h1 : ∀ pr ∈ ([⟨"Widget", "https://a.com/shop/x", "c"⟩] : List ProductUrl),
      ∀ u : UrlParts, parseUrl pr.url = some u → plainFirstSeg u.pathname := by
    intro pr hpr u hu
    simp only [List.mem_singleton] at hpr
    subst hpr
    have hu2 : parseUrl "https://a.com/shop/x" = some u := hu
    have hmap : (parseUrl "https://a.com/shop/x").map (fun w => w.pathname) =
        some "/shop/x" := by decide
    rw [hu2] at hmap
    simp only [Option.map_some'] at hmap
    have hpn : u.pathname = "/shop/x" := Option.some.inj hmap
    rw [hpn]
    unfold plainFirstSeg
    decide
  exact ⟨h1, nonempty_examples_amended _ _ _ h1
    (by intro cu hcu; exact absurd hcu (List.not_mem_nil cu))⟩

/-! ### Registry dedup invariant -/

theorem nodup_snoc {α : Type} (l : List α) (a : α) (hn : l.Nodup)
    (ha : a ∉ l) : (l ++ [a]).Nodup := by
  simp [List.nodup_append, hn, ha]

theorem RegInv_push (Q : ProductUrl → Prop) (seen : List String)
    (products : List ProductUrl) (p : ProductUrl)
    (hinv : RegInv Q (seen, products)) (hnotin : p.url ∉ seen) (hQ : Q p) :
    RegInv Q (seen ++ [p.url], products ++ [p]) := by
  obtain ⟨h1, h2, h3⟩ := hinv
  refine ⟨?_, ?_, ?_⟩
  · rw [List.map_append]
    refine nodup_snoc _ _ h1 ?_
    intro hmem
    rcases List.mem_map.mp hmem with ⟨q, hq, hqu⟩
    have hqu2 : q.url = p.url := hqu
    exact hnotin (hqu2 ▸ h2 q hq)
  · intro q hq
    rcases List.mem_append.mp hq with hq1 | hq2
    · exact List.mem_append_left _ (h2 q hq1)
    · simp only [List.mem_singleton] at hq2
      subst hq2
      simp
  · intro q hq
    rcases List.mem_append.mp hq with hq1 | hq2
    · exact h3 q hq1
    · simp only [List.mem_singleton] at hq2
      subst hq2
      exact hQ

theorem pushNew_fold_inv (Q : ProductUrl → Prop) :
    ∀ (ext : List ProductUrl) (st : List String × List ProductUrl × ℕ),
    RegInv Q (st.1, st.2.1) → (∀ p ∈ ext, Q p) →
    RegInv Q ((ext.foldl (fun st p =>
        if st.1.contains p.url then st
        else (st.1 ++ [p.url], st.2.1 ++ [p], st.2.2 + 1)) st).1,
      (ext.foldl (fun st p =>
        if st.1.contains p.url then st
        else (st.1 ++ [p.url], st.2.1 ++ [p], st.2.2 + 1)) st).2.1) := by
  intro ext
  induction ext with
  | nil => intro st hinv hq; exact hinv
  | cons p rest ih =>
    intro st hinv hq
    rw [List.foldl_cons]
    split_ifs with hc
    · exact ih st hinv (fun q hq2 => hq q (by simp [hq2]))
    · refine ih _ ?_ (fun q hq2 => hq q (by simp [hq2]))
      have hnotin : p.url ∉ st.1 := by
        simpa using (Bool.not_eq_true _).mp hc
      exact RegInv_push Q st.1 st.2.1 p hinv hnotin (hq p (by simp))

theorem pushNew_inv (Q : ProductUrl → Prop) (seen : List String)
    (products extracted : List ProductUrl)
    (hinv : RegInv Q (seen, products)) (hq : ∀ p ∈ extracted, Q p) :
    RegInv Q ((pushNew seen products extracted).1,
      (pushNew seen products extracted).2.1) :=
  pushNew_fold_inv Q extracted (seen, products, 0) hinv hq

theorem addCapped_inv (Q : ProductUrl → Prop) (maxPer : ℕ) :
    ∀ (ext : List ProductUrl) (seen : List String)
      (products : List ProductUrl) (added : ℕ),
    RegInv Q (seen, products) → (∀ p ∈ ext, Q p) →
    RegInv Q (addCapped maxPer ext seen products added) := by
  intro ext
  induction ext with
  | nil => intro seen products added hinv hq; exact hinv
  | cons p rest ih =>
    intro seen products added hinv hq
    show RegInv Q
      (if seen.contains p.url then addCapped maxPer rest seen products added
       else if maxPer ≤ added then (seen, products)
       else addCapped maxPer rest (seen ++ [p.url]) (products ++ [p]) (added + 1))
    split_ifs with h1 h2
    · exact ih seen products added hinv (fun q hq2 => hq q (by simp [hq2]))
    · exact hinv
    · refine ih _ _ _ ?_ (fun q hq2 => hq q (by simp [hq2]))
      have hnotin : p.url ∉ seen := by
        simpa using (Bool.not_eq_true _).mp h1
      exact RegInv_push Q seen products p hinv hnotin (hq p (by simp))

theorem pagLoop_inv (Q : ProductUrl → Prop) (maxTotal : ℕ) :
    ∀ (fuel : ℕ) (steps : List (List ProductUrl)) (seen : List String)
      (products : List ProductUrl),
    RegInv Q (seen, products) →
    (∀ step ∈ steps, ∀ p ∈ step, Q p) →
    RegInv Q (pagLoop maxTotal fuel steps seen products) := by
  intro fuel
  induction fuel with
  | zero => intro steps seen products hinv hq; exact hinv
  | succ f ih =>
    intro steps seen products hinv hq
    cases steps with
    | nil => exact hinv
    | cons step rest =>
      show RegInv Q
        (if products.length < maxTotal then
          if (pushNew seen products step).2.2 = 0 then
            ((pushNew seen products step).1, (pushNew seen products step).2.1)
          else pagLoop maxTotal f rest (pushNew seen products step).1
            (pushNew seen products step).2.1
         else (seen, products))
      have hstep : RegInv Q ((pushNew seen products step).1,
          (pushNew seen products step).2.1) :=
        pushNew_inv Q seen products step hinv (hq step (by simp))
      split_ifs with h1 h2
      · exact hstep
      · exact ih rest _ _ hstep (fun s hs p hp => hq s (by simp [hs]) p hp)
      · exact hinv

theorem visits_fold_inv (Q : ProductUrl → Prop) (maxPer : ℕ) :
    ∀ (visits : List CatVisit) (st : List String × List ProductUrl),
    RegInv Q st →
    (∀ v ∈ visits, (∀ p ∈ v.pageProducts, Q p) ∧
      ∀ step ∈ v.pagSteps, ∀ p ∈ step, Q p) →
    RegInv Q (visits.foldl (visitCategory maxPer) st) := by
  intro visits
  induction visits with
  | nil => intro st hinv hq; exact hinv
  | cons v rest ih =>
    intro st hinv hq
    rw [List.foldl_cons]
    obtain ⟨seen, products⟩ := st
    have hv := hq v (by simp)
    have hcap : RegInv Q (addCapped maxPer v.pageProducts seen products 0) :=
      addCapped_inv Q maxPer v.pageProducts seen products 0 hinv hv.1
    have hvisit : RegInv Q (visitCategory maxPer (seen, products) v) := by
      show RegInv Q
        (if v.hasMore then
          pagLoop maxPer 5 v.pagSteps
            (addCapped maxPer v.pageProducts seen products 0).1
            (addCapped maxPer v.pageProducts seen products 0).2
         else addCapped maxPer v.pageProducts seen products 0)
      split_ifs with hm
      · exact pagLoop_inv Q maxPer 5 v.pagSteps _ _ hcap hv.2
      · exact hcap
    exact ih _ hvisit (fun w hw => hq w (by simp [hw]))

/-- Claim C8: the `products` list `buildUrlRegistry` returns never holds
two entries with the same url string — re-encountering an identical
canonical URL, on the same category page, a later category page, or a
pagination pass, never adds a second entry (every push is guarded by
the shared `seenProductUrls` set) — and when every URL the page
extraction yields is in the normalized `origin + pathname` form (which
`extractProductUrls` builds for every link), every stored url is in
that form. -/
theorem registry_products_dedup (maxPer : ℕ) (visits : List CatVisit)
    (hnorm : ∀ v ∈ visits, (∀ p ∈ v.pageProducts, normalizedUrl p.url = true) ∧
      ∀ step ∈ v.pagSteps, ∀ p ∈ step, normalizedUrl p.url = true) :
    ((buildProducts maxPer visits).map (fun p => p.url)).Nodup ∧
    ∀ p ∈ buildProducts maxPer visits, normalizedUrl p.url = true := by
  have h := visits_fold_inv (fun p => normalizedUrl p.url = true) maxPer visits
    ([], []) ⟨by simp, by simp, by simp⟩ hnorm
  exact ⟨h.1, h.2.2⟩

theorem registry_products_dedup_witness :
    (∀ v ∈ [visD], (∀ p ∈ v.pageProducts, normalizedUrl p.url = true) ∧
      ∀ step ∈ v.pagSteps, ∀ p ∈ step, normalizedUrl p.url = true) ∧
    ((buildProducts 200 [visD]).map (fun p => p.url)).Nodup ∧
    ∀ p ∈ buildProducts 200 [visD], normalizedUrl p.url = true :=
  ⟨by decide, registry_products_dedup 200 [visD] (by decide)⟩

end Stealth
